import Mathlib

/-! # queue-pr: aggregation and grouping engine

A shallow embedding of `main.go` (listing of organisation repositories,
collection of open pull requests per base branch, ranking of each bucket by
last update and the review summary printed for each record), followed by the
properties proved about it.

Conventions of the embedding
* Go slices are lists (`nil` and the empty slice are both `[]`).
* Go maps with string keys are association lists with pairwise distinct keys;
  the order of the list is the insertion order and carries no meaning, since Go
  leaves the iteration order of a map unspecified.
* Pointer fields of the go-github structures that the getters guard against
  `nil` are `Option`s, and the getters return the zero value on `none`.
* A remote call is a function of its arguments returning either an error or the
  payload.
* `int` is the 64-bit integer of the usual platforms.
-/

namespace QueuePr

/-! ## Go maps with string keys -/

/-- Go `map[string]β` as an association list. -/
abbrev GoMap (β : Type) := List (String × β)

namespace GoMap

/-- The lookup `m[k]` with the comma-ok flag folded into the option. -/
def find {β : Type} : GoMap β → String → Option β
  | [], _ => none
  | (k', v) :: rest, k => if k' = k then some v else find rest k

/-- The assignment `m[k] = v`. -/
def put {β : Type} : GoMap β → String → β → GoMap β
  | [], k, v => [(k, v)]
  | (k', v') :: rest, k, v => if k' = k then (k, v) :: rest else (k', v') :: put rest k v

/-- The keys of the map. -/
def keys {β : Type} (m : GoMap β) : List String := m.map Prod.fst

end GoMap

/-! ## The go-github data used by the program -/

/-- Go `error` values. -/
structure GoError where
  msg : String
deriving DecidableEq

/-- The instant of a `time.Time` without monotonic clock reading, in nanoseconds
(`sec() * 1e9 + nsec()`). -/
structure Time where
  ns : Int
deriving DecidableEq

/-- Fields of `github.User` that are read. -/
structure User where
  Login : Option String
deriving DecidableEq

/-- Fields of `github.Repository` that are read. -/
structure Repository where
  Owner : Option User
  Name : Option String
deriving DecidableEq

/-- Fields of `github.PullRequestBranch` that are read. -/
structure PullRequestBranch where
  Label : Option String
deriving DecidableEq

/-- Fields of `github.PullRequest` that are read. `UpdatedAt` is dereferenced
without a guard by the program, so it is a plain value here. -/
structure PullRequest where
  Number : Option Int
  Title : Option String
  User : Option User
  Base : Option PullRequestBranch
  UpdatedAt : Time
deriving DecidableEq

/-- Fields of `github.PullRequestReview` that are read. -/
structure PullRequestReview where
  User : Option User
deriving DecidableEq

/-- The getter `(*User).GetLogin` composed with the `nil`-safe receiver. -/
def GetLogin (u : Option User) : String :=
  match u with
  | some v => v.Login.getD ""
  | none => ""

/-- The getter `(*Repository).GetName`. -/
def Repository.GetName (r : Repository) : String := r.Name.getD ""

/-- The getter chain `repo.GetOwner().GetLogin()`. -/
def Repository.GetOwnerLogin (r : Repository) : String := GetLogin r.Owner

/-- The getter `(*PullRequest).GetNumber`. -/
def PullRequest.GetNumber (p : PullRequest) : Int := p.Number.getD 0

/-- The getter chain `pr.GetBase().GetLabel()`. -/
def PullRequest.GetBaseLabel (p : PullRequest) : String :=
  match p.Base with
  | some b => b.Label.getD ""
  | none => ""

/-- The getter chain `prr.GetUser().GetLogin()`. -/
def PullRequestReview.GetUserLogin (r : PullRequestReview) : String := GetLogin r.User

/-- The three list operations of `*github.Client` used by the program. The page
size is the constant 100 at every call site and is not an argument here.
`ListByOrg org page` gives the repositories of the page and `resp.NextPage`. -/
structure Client where
  ListByOrg : String → Nat → Except GoError (List Repository × Nat)
  ListReviews : String → String → Int → Except GoError (List PullRequestReview)
  List : String → String → Except GoError (List PullRequest)

/-! ## `listAllOrgRepos` -/

/-- The loop of `listAllOrgRepos`: `page` is `opt.Page`, `acc` is `allRepos`.
The first component of the result is the returned slice, the second the
returned error. `none` means that the iteration budget `fuel` ran out. -/
def listAllOrgReposLoop (client : Client) (org : String) :
    Nat → Nat → List Repository → Option (List Repository × Option GoError)
  | 0, _, _ => none
  | fuel + 1, page, acc =>
    match client.ListByOrg org page with
    | .error err => some ([], some err)
    | .ok (repos, nextPage) =>
      if nextPage = 0 then some (acc ++ repos, none)
      else listAllOrgReposLoop client org fuel nextPage (acc ++ repos)

/-- The function `listAllOrgRepos(client, org)`, with an iteration budget. -/
def listAllOrgRepos (client : Client) (org : String) (fuel : Nat) :
    Option (List Repository × Option GoError) :=
  listAllOrgReposLoop client org fuel 0 []

/-! ## `tagAliases` and the normalisation of the base label -/

/-- The table `tagAliases`. -/
def tagAliases : GoMap String :=
  [("symphonics:dev", "symphonics:development")]

/-- Lines 98 to 101 of `listPrsPerBase`: the base label after the alias lookup. -/
def normalizeBase (base : String) : String :=
  match tagAliases.find base with
  | some canonical => canonical
  | none => base

/-! ## `listPrsPerBase` -/

/-- The struct `Containers`. -/
structure Containers where
  Repo : Repository
  Pr : PullRequest
  Prr : List PullRequestReview
deriving DecidableEq

/-- The map `prsPerBase`. -/
abbrev Grouping := GoMap (List Containers)

/-- The statement `prsPerBase[base] = append(prsPerBase[base], c)`. -/
def Grouping.push (g : Grouping) (base : String) (c : Containers) : Grouping :=
  GoMap.put g base ((GoMap.find g base).getD [] ++ [c])

/-- What `listPrsPerBase` writes to standard output. -/
inductive Printed where
  | repoLine (count : Nat) (name : String)
  | total (count : Nat)
deriving DecidableEq

/-- The inner loop of `listPrsPerBase` over the pull requests of one repository. -/
def reviewLoop (client : Client) (repo : Repository) :
    List PullRequest → Grouping → Except GoError Grouping
  | [], g => .ok g
  | pr :: prs, g =>
    match client.ListReviews repo.GetOwnerLogin repo.GetName pr.GetNumber with
    | .error err => .error err
    | .ok reviews =>
      reviewLoop client repo prs
        (g.push (normalizeBase pr.GetBaseLabel) ⟨repo, pr, reviews⟩)

/-- The result of `listPrsPerBase`: the returned map (`none` is the `nil` map),
the returned error and what was printed. -/
structure Collected where
  grouping : Option Grouping
  err : Option GoError
  stdout : List Printed
deriving DecidableEq

/-- The outer loop of `listPrsPerBase` over the repositories, with the state
`prsPerBase`, `countPr` and the output so far, and the epilogue after the loop. -/
def repoLoop (client : Client) :
    List Repository → Grouping → Nat → List Printed → Collected
  | [], g, countPr, out =>
    ⟨some g, none, out ++ [Printed.total countPr]⟩
  | repo :: repos, g, countPr, out =>
    match client.List repo.GetOwnerLogin repo.GetName with
    | .error err => ⟨none, some err, out⟩
    | .ok prs =>
      if prs.length = 0 then repoLoop client repos g countPr out
      else
        let out1 := out ++ [Printed.repoLine prs.length repo.GetName]
        match reviewLoop client repo prs g with
        | .error err => ⟨none, some err, out1⟩
        | .ok g1 => repoLoop client repos g1 (countPr + prs.length) out1

/-- The function `listPrsPerBase(repos, client)`. -/
def listPrsPerBase (repos : List Repository) (client : Client) : Collected :=
  repoLoop client repos [] 0 []

/-! ## The review summary printed by `run` -/

/-- The statement `reviewerCount[login]++`. -/
def bump (m : GoMap Nat) (login : String) : GoMap Nat :=
  GoMap.put m login ((GoMap.find m login).getD 0 + 1)

/-- Lines 165 to 168 of `run`: the map `reviewerCount` of a record. -/
def reviewerCount (prr : List PullRequestReview) : GoMap Nat :=
  prr.foldl (fun m r => bump m r.GetUserLogin) []

/-- The two review figures of the line printed for a record:
`len(container.Prr)` and `len(reviewerCount)`. -/
def reviewFigures (c : Containers) : Nat × Nat :=
  (c.Prr.length, (reviewerCount c.Prr).length)

/-! ## The comparator of the ranking step -/

/-- The constant `minDuration`. -/
def minDuration : Int := -(2 ^ 63)

/-- The constant `maxDuration`. -/
def maxDuration : Int := 2 ^ 63 - 1

/-- The method `Time.Before`. -/
def Time.Before (t u : Time) : Bool := decide (t.ns < u.ns)

/-- The method `Time.Sub`: the difference as a `Duration`, replaced by the
minimum or maximum duration when it cannot be stored. -/
def Time.Sub (t u : Time) : Int :=
  let d := t.ns - u.ns
  if minDuration ≤ d ∧ d ≤ maxDuration then d
  else if t.Before u then minDuration
  else maxDuration

/-- The conversion `int(d)` of a 64-bit value to the 64-bit `int`
(two's complement wrap-around). -/
def toInt (d : Int) : Int := (d + 2 ^ 63) % 2 ^ 64 - 2 ^ 63

/-- The comparator passed to `slices.SortFunc` in `run`. -/
def updatedAtCmp (a b : Containers) : Int :=
  toInt (a.Pr.UpdatedAt.Sub b.Pr.UpdatedAt)

/-! ## `slices.SortFunc`

The ranking step calls `slices.SortFunc` of the Go standard library, which is
the pattern-defeating quicksort of `slices/zsortanyfunc.go`. The functions below
follow that file one for one. A slice access out of range (a Go panic) and an
exhausted iteration budget are both `none`.
-/

section Pdqsort

variable {α : Type}

/-- The assignment `data[i], data[j] = data[j], data[i]`. -/
def swapAt (data : List α) (i j : Nat) : Option (List α) :=
  match data[i]?, data[j]? with
  | some x, some y => some ((data.set i y).set j x)
  | _, _ => none

/-- The test `cmp(data[i], data[j]) < 0`. -/
def lessAt (cmp : α → α → Int) (data : List α) (i j : Nat) : Option Bool :=
  match data[i]?, data[j]? with
  | some x, some y => some (decide (cmp x y < 0))
  | _, _ => none

/-- The inner loop of `insertionSortCmpFunc`:
`for j := i; j > a && cmp(data[j], data[j-1]) < 0; j--`. -/
def insertionInner (cmp : α → α → Int) (a : Nat) : Nat → List α → Option (List α)
  | 0, data => some data
  | j + 1, data =>
    if a < j + 1 then
      match lessAt cmp data (j + 1) j with
      | none => none
      | some true =>
        match swapAt data (j + 1) j with
        | none => none
        | some data1 => insertionInner cmp a j data1
      | some false => some data
    else some data

/-- The outer loop of `insertionSortCmpFunc`: `for i := ...; i < b; i++`, with
`n` the number of iterations left, `b - i`. -/
def insertionOuter (cmp : α → α → Int) (a : Nat) : Nat → Nat → List α → Option (List α)
  | 0, _, data => some data
  | n + 1, i, data =>
    match insertionInner cmp a i data with
    | none => none
    | some data1 => insertionOuter cmp a n (i + 1) data1

/-- The function `insertionSortCmpFunc(data, a, b, cmp)`. -/
def insertionSortCmpFunc (cmp : α → α → Int) (data : List α) (a b : Nat) : Option (List α) :=
  insertionOuter cmp a (b - (a + 1)) (a + 1) data

/-- The function `siftDownCmpFunc(data, lo, hi, first, cmp)`; `root` starts at `lo`. -/
def siftDownCmpFunc (cmp : α → α → Int) (hi first : Nat) :
    Nat → Nat → List α → Option (List α)
  | 0, _, _ => none
  | fuel + 1, root, data =>
    let child := 2 * root + 1
    if hi ≤ child then some data
    else
      match (if child + 1 < hi then lessAt cmp data (first + child) (first + child + 1)
             else some false) with
      | none => none
      | some up =>
        let child1 := if up then child + 1 else child
        match lessAt cmp data (first + root) (first + child1) with
        | none => none
        | some false => some data
        | some true =>
          match swapAt data (first + root) (first + child1) with
          | none => none
          | some data1 => siftDownCmpFunc cmp hi first fuel child1 data1

/-- The first loop of `heapSortCmpFunc`: `for i := (hi - 1) / 2; i >= 0; i--`. -/
def heapBuild (cmp : α → α → Int) (hi first : Nat) : Nat → List α → Option (List α)
  | 0, data => siftDownCmpFunc cmp hi first (hi + 1) 0 data
  | i + 1, data =>
    match siftDownCmpFunc cmp hi first (hi + 1) (i + 1) data with
    | none => none
    | some data1 => heapBuild cmp hi first i data1

/-- The second loop of `heapSortCmpFunc`: `for i := hi - 1; i >= 0; i--`, with the
argument `i + 1`. -/
def heapPop (cmp : α → α → Int) (first : Nat) : Nat → List α → Option (List α)
  | 0, data => some data
  | i + 1, data =>
    match swapAt data first (first + i) with
    | none => none
    | some data1 =>
      match siftDownCmpFunc cmp i first (i + 1) 0 data1 with
      | none => none
      | some data2 => heapPop cmp first i data2

/-- The function `heapSortCmpFunc(data, a, b, cmp)`. -/
def heapSortCmpFunc (cmp : α → α → Int) (data : List α) (a b : Nat) : Option (List α) :=
  let hi := b - a
  match heapBuild cmp hi a ((hi - 1) / 2) data with
  | none => none
  | some data1 => heapPop cmp a hi data1

/-- The loop `for i <= j && cmp(data[i], data[a]) < 0 { i++ }` of
`partitionCmpFunc`. -/
def scanLess (cmp : α → α → Int) (data : List α) (a j : Nat) : Nat → Nat → Option Nat
  | 0, _ => none
  | fuel + 1, i =>
    if i ≤ j then
      match lessAt cmp data i a with
      | none => none
      | some true => scanLess cmp data a j fuel (i + 1)
      | some false => some i
    else some i

/-- The loop `for i <= j && !(cmp(data[j], data[a]) < 0) { j-- }` of
`partitionCmpFunc`. -/
def scanNotLess (cmp : α → α → Int) (data : List α) (a i : Nat) : Nat → Nat → Option Nat
  | 0, _ => none
  | fuel + 1, j =>
    if i ≤ j then
      match lessAt cmp data j a with
      | none => none
      | some false => scanNotLess cmp data a i fuel (j - 1)
      | some true => some j
    else some j

/-- The main loop of `partitionCmpFunc`; the result is `j` and the slice at
the `break`. -/
def partitionLoop (cmp : α → α → Int) (a : Nat) :
    Nat → Nat → Nat → List α → Option (Nat × List α)
  | 0, _, _, _ => none
  | fuel + 1, i, j, data =>
    match scanLess cmp data a j (j + 2 - i) i with
    | none => none
    | some i1 =>
      match scanNotLess cmp data a i1 (j + 2 - i1) j with
      | none => none
      | some j1 =>
        if j1 < i1 then some (j1, data)
        else
          match swapAt data i1 j1 with
          | none => none
          | some data1 => partitionLoop cmp a fuel (i1 + 1) (j1 - 1) data1

/-- The function `partitionCmpFunc(data, a, b, pivot, cmp)`: the slice, `newpivot` and
`alreadyPartitioned`. -/
def partitionCmpFunc (cmp : α → α → Int) (data : List α) (a b pivot : Nat) :
    Option (List α × Nat × Bool) :=
  match swapAt data a pivot with
  | none => none
  | some data1 =>
    let i := a + 1
    let j := b - 1
    match scanLess cmp data1 a j (j + 2 - i) i with
    | none => none
    | some i1 =>
      match scanNotLess cmp data1 a i1 (j + 2 - i1) j with
      | none => none
      | some j1 =>
        if j1 < i1 then
          match swapAt data1 j1 a with
          | none => none
          | some data2 => some (data2, j1, true)
        else
          match swapAt data1 i1 j1 with
          | none => none
          | some data2 =>
            match partitionLoop cmp a (b - a + 1) (i1 + 1) (j1 - 1) data2 with
            | none => none
            | some (j2, data3) =>
              match swapAt data3 j2 a with
              | none => none
              | some data4 => some (data4, j2, false)

/-- The loop `for i <= j && !(cmp(data[a], data[i]) < 0) { i++ }` of
`partitionEqualCmpFunc`. -/
def scanNotGreater (cmp : α → α → Int) (data : List α) (a j : Nat) : Nat → Nat → Option Nat
  | 0, _ => none
  | fuel + 1, i =>
    if i ≤ j then
      match lessAt cmp data a i with
      | none => none
      | some false => scanNotGreater cmp data a j fuel (i + 1)
      | some true => some i
    else some i

/-- The loop `for i <= j && cmp(data[a], data[j]) < 0 { j-- }` of
`partitionEqualCmpFunc`. -/
def scanGreater (cmp : α → α → Int) (data : List α) (a i : Nat) : Nat → Nat → Option Nat
  | 0, _ => none
  | fuel + 1, j =>
    if i ≤ j then
      match lessAt cmp data a j with
      | none => none
      | some true => scanGreater cmp data a i fuel (j - 1)
      | some false => some j
    else some j

/-- The loop of `partitionEqualCmpFunc`; the result is `i` and the slice at the
`break`. -/
def partitionEqualLoop (cmp : α → α → Int) (a : Nat) :
    Nat → Nat → Nat → List α → Option (Nat × List α)
  | 0, _, _, _ => none
  | fuel + 1, i, j, data =>
    match scanNotGreater cmp data a j (j + 2 - i) i with
    | none => none
    | some i1 =>
      match scanGreater cmp data a i1 (j + 2 - i1) j with
      | none => none
      | some j1 =>
        if j1 < i1 then some (i1, data)
        else
          match swapAt data i1 j1 with
          | none => none
          | some data1 => partitionEqualLoop cmp a fuel (i1 + 1) (j1 - 1) data1

/-- The function `partitionEqualCmpFunc(data, a, b, pivot, cmp)`: the slice and `newpivot`. -/
def partitionEqualCmpFunc (cmp : α → α → Int) (data : List α) (a b pivot : Nat) :
    Option (List α × Nat) :=
  match swapAt data a pivot with
  | none => none
  | some data1 =>
    match partitionEqualLoop cmp a (b - a + 1) (a + 1) (b - 1) data1 with
    | none => none
    | some (i, data2) => some (data2, i)

/-- The loop `for i < b && !(cmp(data[i], data[i-1]) < 0) { i++ }` of
`partialInsertionSortCmpFunc`. -/
def scanOrdered (cmp : α → α → Int) (data : List α) (b : Nat) : Nat → Nat → Option Nat
  | 0, _ => none
  | fuel + 1, i =>
    if i < b then
      match lessAt cmp data i (i - 1) with
      | none => none
      | some false => scanOrdered cmp data b fuel (i + 1)
      | some true => some i
    else some i

/-- The loop `for j := i - 1; j >= 1; j--` of `partialInsertionSortCmpFunc`
that shifts the smaller element to the left. -/
def shiftLeft (cmp : α → α → Int) : Nat → List α → Option (List α)
  | 0, data => some data
  | j + 1, data =>
    match lessAt cmp data (j + 1) j with
    | none => none
    | some false => some data
    | some true =>
      match swapAt data (j + 1) j with
      | none => none
      | some data1 => shiftLeft cmp j data1

/-- The loop `for j := i + 1; j < b; j++` of `partialInsertionSortCmpFunc`
that shifts the greater element to the right, with `n` the number of iterations
left, `b - j`. -/
def shiftRight (cmp : α → α → Int) : Nat → Nat → List α → Option (List α)
  | 0, _, data => some data
  | n + 1, j, data =>
    match lessAt cmp data j (j - 1) with
    | none => none
    | some false => some data
    | some true =>
      match swapAt data j (j - 1) with
      | none => none
      | some data1 => shiftRight cmp n (j + 1) data1

/-- The outer loop of `partialInsertionSortCmpFunc`, with `steps` the number
of iterations left, `maxSteps - j`. The result is the slice and the returned
flag. -/
def partialInsertionLoop (cmp : α → α → Int) (a b : Nat) :
    Nat → Nat → List α → Option (List α × Bool)
  | 0, _, data => some (data, false)
  | steps + 1, i, data =>
    match scanOrdered cmp data b (b + 1 - i) i with
    | none => none
    | some i1 =>
      if i1 = b then some (data, true)
      else if b - a < 50 then some (data, false)
      else
        match swapAt data i1 (i1 - 1) with
        | none => none
        | some data1 =>
          match (if 2 ≤ i1 - a then shiftLeft cmp (i1 - 1) data1 else some data1) with
          | none => none
          | some data2 =>
            match (if 2 ≤ b - i1 then shiftRight cmp (b - (i1 + 1)) (i1 + 1) data2
                   else some data2) with
            | none => none
            | some data3 => partialInsertionLoop cmp a b steps i1 data3

/-- The function `partialInsertionSortCmpFunc(data, a, b, cmp)`. -/
def partialInsertionSortCmpFunc (cmp : α → α → Int) (data : List α) (a b : Nat) :
    Option (List α × Bool) :=
  partialInsertionLoop cmp a b 5 (a + 1) data

/-- The function `bits.Len(uint(n))`. -/
def bitsLen (n : Nat) : Nat := if n = 0 then 0 else Nat.log2 n + 1

/-- The function `nextPowerOfTwo(length)`. -/
def nextPowerOfTwo (length : Nat) : Nat := 2 ^ bitsLen length % 2 ^ 64

/-- The function `(*xorshift).Next` on the 64-bit state `r`; the new state is also the
value returned. -/
def xorshiftNext (r : Nat) : Nat :=
  let r1 := r ^^^ ((r <<< 13) % 2 ^ 64)
  let r2 := r1 ^^^ (r1 >>> 7)
  r2 ^^^ ((r2 <<< 17) % 2 ^ 64)

/-- The loop `for i := 0; i < 3; i++` of `breakPatternsCmpFunc`, with `n` the
number of iterations left. -/
def breakPatternsLoop (a length modulus idx : Nat) :
    Nat → Nat → Nat → List α → Option (List α)
  | 0, _, _, data => some data
  | n + 1, i, random, data =>
    let random1 := xorshiftNext random
    let other := random1 &&& (modulus - 1)
    let other1 := if length ≤ other then other - length else other
    match swapAt data (idx - 1 + i) (a + other1) with
    | none => none
    | some data1 => breakPatternsLoop a length modulus idx n (i + 1) random1 data1

/-- The function `breakPatternsCmpFunc(data, a, b, cmp)`. -/
def breakPatternsCmpFunc (data : List α) (a b : Nat) : Option (List α) :=
  let length := b - a
  if 8 ≤ length then
    breakPatternsLoop a length (nextPowerOfTwo length) (a + (length / 4) * 2 - 1) 3 0
      (length % 2 ^ 64) data
  else some data

/-- The type `sortedHint`. -/
inductive sortedHint where
  | unknownHint
  | increasingHint
  | decreasingHint
deriving DecidableEq

/-- The function `order2CmpFunc(data, a, b, swaps, cmp)`, with the counter `*swaps` passed
through. -/
def order2CmpFunc (cmp : α → α → Int) (data : List α) (a b swaps : Nat) :
    Option (Nat × Nat × Nat) :=
  match lessAt cmp data b a with
  | none => none
  | some true => some (b, a, swaps + 1)
  | some false => some (a, b, swaps)

/-- The function `medianCmpFunc(data, a, b, c, swaps, cmp)`: the index and the counter. -/
def medianCmpFunc (cmp : α → α → Int) (data : List α) (a b c swaps : Nat) :
    Option (Nat × Nat) :=
  match order2CmpFunc cmp data a b swaps with
  | none => none
  | some (a1, b1, swaps1) =>
    match order2CmpFunc cmp data b1 c swaps1 with
    | none => none
    | some (b2, _, swaps2) =>
      match order2CmpFunc cmp data a1 b2 swaps2 with
      | none => none
      | some (_, b3, swaps3) => some (b3, swaps3)

/-- The function `medianAdjacentCmpFunc(data, a, swaps, cmp)`. -/
def medianAdjacentCmpFunc (cmp : α → α → Int) (data : List α) (a swaps : Nat) :
    Option (Nat × Nat) :=
  medianCmpFunc cmp data (a - 1) a (a + 1) swaps

/-- The function `choosePivotCmpFunc(data, a, b, cmp)`. -/
def choosePivotCmpFunc (cmp : α → α → Int) (data : List α) (a b : Nat) :
    Option (Nat × sortedHint) :=
  let l := b - a
  let i := a + l / 4 * 1
  let j := a + l / 4 * 2
  let k := a + l / 4 * 3
  let chosen : Option (Nat × Nat) :=
    if 8 ≤ l then
      if 50 ≤ l then
        match medianAdjacentCmpFunc cmp data i 0 with
        | none => none
        | some (i1, swaps1) =>
          match medianAdjacentCmpFunc cmp data j swaps1 with
          | none => none
          | some (j1, swaps2) =>
            match medianAdjacentCmpFunc cmp data k swaps2 with
            | none => none
            | some (k1, swaps3) => medianCmpFunc cmp data i1 j1 k1 swaps3
      else medianCmpFunc cmp data i j k 0
    else some (j, 0)
  match chosen with
  | none => none
  | some (j1, swaps) =>
    if swaps = 0 then some (j1, sortedHint.increasingHint)
    else if swaps = 12 then some (j1, sortedHint.decreasingHint)
    else some (j1, sortedHint.unknownHint)

/-- The loop `for i < j` of `reverseRangeCmpFunc`. -/
def reverseLoop : Nat → Nat → Nat → List α → Option (List α)
  | 0, _, _, _ => none
  | fuel + 1, i, j, data =>
    if i < j then
      match swapAt data i j with
      | none => none
      | some data1 => reverseLoop fuel (i + 1) (j - 1) data1
    else some data

/-- The function `reverseRangeCmpFunc(data, a, b, cmp)`. -/
def reverseRangeCmpFunc (data : List α) (a b : Nat) : Option (List α) :=
  reverseLoop (b - a + 1) a (b - 1) data

/-- The loop of `pdqsortCmpFunc(data, a, b, limit, cmp)` from the top of an
iteration, with the local flags `wasBalanced` and `wasPartitioned`; a recursive
call of the Go function is the loop entered with both flags `true`. -/
def pdqsortLoop (cmp : α → α → Int) :
    Nat → List α → Nat → Nat → Nat → Bool → Bool → Option (List α)
  | 0, _, _, _, _, _, _ => none
  | fuel + 1, data, a, b, limit, wasBalanced, wasPartitioned =>
    let length := b - a
    if length ≤ 12 then insertionSortCmpFunc cmp data a b
    else if limit = 0 then heapSortCmpFunc cmp data a b
    else
      match (if !wasBalanced then (breakPatternsCmpFunc data a b).map (fun d => (d, limit - 1))
             else some (data, limit)) with
      | none => none
      | some (data1, limit1) =>
        match choosePivotCmpFunc cmp data1 a b with
        | none => none
        | some (pivot0, hint0) =>
          match (if hint0 = sortedHint.decreasingHint then
                   (reverseRangeCmpFunc data1 a b).map
                     (fun d => (d, (b - 1) - (pivot0 - a), sortedHint.increasingHint))
                 else some (data1, pivot0, hint0)) with
          | none => none
          | some (data2, pivot, hint) =>
            match (if wasBalanced && wasPartitioned && hint = sortedHint.increasingHint then
                     partialInsertionSortCmpFunc cmp data2 a b
                   else some (data2, false)) with
            | none => none
            | some (data3, true) => some data3
            | some (data3, false) =>
              match (if 0 < a then (lessAt cmp data3 (a - 1) pivot).map (fun lt => !lt)
                     else some false) with
              | none => none
              | some true =>
                match partitionEqualCmpFunc cmp data3 a b pivot with
                | none => none
                | some (data4, mid) =>
                  pdqsortLoop cmp fuel data4 mid b limit1 wasBalanced wasPartitioned
              | some false =>
                match partitionCmpFunc cmp data3 a b pivot with
                | none => none
                | some (data4, mid, alreadyPartitioned) =>
                  let leftLen := mid - a
                  let rightLen := b - mid
                  let balanceThreshold := length / 8
                  if leftLen < rightLen then
                    match pdqsortLoop cmp fuel data4 a mid limit1 true true with
                    | none => none
                    | some data5 =>
                      pdqsortLoop cmp fuel data5 (mid + 1) b limit1
                        (decide (balanceThreshold ≤ leftLen)) alreadyPartitioned
                  else
                    match pdqsortLoop cmp fuel data4 (mid + 1) b limit1 true true with
                    | none => none
                    | some data5 =>
                      pdqsortLoop cmp fuel data5 a mid limit1
                        (decide (balanceThreshold ≤ rightLen)) alreadyPartitioned

/-- The function `slices.SortFunc(x, cmp)`. The main loop gets the iteration
budget `len(x) + 1`, which is always enough (`SortFunc_spec`). -/
def SortFunc (cmp : α → α → Int) (x : List α) : Option (List α) :=
  pdqsortLoop cmp (x.length + 1) x 0 x.length (bitsLen x.length) true true

end Pdqsort

/-! ## The ranking step of `run` -/

/-- Lines 144 to 146 of `run`: the bucket after `slices.SortFunc` with the
comparator on the instants of last update. -/
def rankBucket (containers : List Containers) : Option (List Containers) :=
  SortFunc updatedAtCmp containers

/-- The ranking step over the whole map: the loop of `run` sorts the bucket of
every key in place (the slice of the loop variable shares its array with the
slice held by the map). -/
def rankAll : Grouping → Option Grouping
  | [] => some []
  | (base, containers) :: rest =>
    match rankBucket containers with
    | none => none
    | some ranked =>
      match rankAll rest with
      | none => none
      | some rest1 => some ((base, ranked) :: rest1)

/-! # Specification side

Definitions used to state the properties; they are not part of the program. -/

/-! ## The page chain of `listAllOrgRepos` -/

/-- The page cursor of the request number `n` (from 0) issued by the loop:
0 for the first request, then the `NextPage` of the previous response. -/
def pageAt (client : Client) (org : String) : Nat → Nat
  | 0 => 0
  | n + 1 =>
    match client.ListByOrg org (pageAt client org n) with
    | .ok (_, nextPage) => nextPage
    | .error _ => 0

/-- The items of the response to the request number `n`. -/
def itemsAt (client : Client) (org : String) (n : Nat) : List Repository :=
  match client.ListByOrg org (pageAt client org n) with
  | .ok (repos, _) => repos
  | .error _ => []

/-- The concatenation, in request order, of the items of the first `n` responses. -/
def itemsUpTo (client : Client) (org : String) (n : Nat) : List Repository :=
  (List.range n).flatMap (itemsAt client org)

/-! ## Specification side of the collection -/

/-- The pull requests that the fetch for a repository gives (none when it fails). -/
def fetchedPrs (client : Client) (repo : Repository) : List PullRequest :=
  match client.List repo.GetOwnerLogin repo.GetName with
  | .ok prs => prs
  | .error _ => []

/-- The reviews that the fetch for a pull request gives (none when it fails). -/
def fetchedReviews (client : Client) (repo : Repository) (pr : PullRequest) :
    List PullRequestReview :=
  match client.ListReviews repo.GetOwnerLogin repo.GetName pr.GetNumber with
  | .ok reviews => reviews
  | .error _ => []

/-- The records of the fetched pull requests of a repository, in fetch order. -/
def recordsOf (client : Client) (repo : Repository) : List Containers :=
  (fetchedPrs client repo).map fun pr => ⟨repo, pr, fetchedReviews client repo pr⟩

/-- The records of all fetched pull requests, in fetch order. -/
def allRecords (client : Client) (repos : List Repository) : List Containers :=
  repos.flatMap (recordsOf client)

/-- The canonical base label of a record. -/
def Containers.base (c : Containers) : String := normalizeBase c.Pr.GetBaseLabel

/-- Every review fetch for the given pull requests of the repository succeeds. -/
def ReviewsSucceed (client : Client) (repo : Repository) (prs : List PullRequest) : Prop :=
  ∀ pr ∈ prs, ∃ reviews,
    client.ListReviews repo.GetOwnerLogin repo.GetName pr.GetNumber = .ok reviews

/-- Every fetch that the collection issues for the repositories succeeds. -/
def FetchesSucceed (client : Client) (repos : List Repository) : Prop :=
  ∀ repo ∈ repos, ∃ prs,
    client.List repo.GetOwnerLogin repo.GetName = .ok prs ∧ ReviewsSucceed client repo prs

/-- The buckets of a grouping, one after the other. -/
def Grouping.flatten (g : Grouping) : List Containers := g.flatMap Prod.snd

/-- The map after the records have been appended to their buckets in order. -/
def pushAll (g : Grouping) (recs : List Containers) : Grouping :=
  recs.foldl (fun g c => g.push c.base c) g

/-- A list as the result of a map lookup: absent when empty. -/
def nonEmpty (l : List Containers) : Option (List Containers) :=
  if l = [] then none else some l

/-! ## Specification side of the sort -/

section PdqsortSpec

variable {α : Type}

/-- The key of the element at an index (0 outside the slice). -/
def keyAt (key : α → Int) (data : List α) (i : Nat) : Int :=
  match data[i]? with
  | some x => key x
  | none => 0

/-- The slice with the elements at two indices exchanged (unchanged when an
index is out of range). -/
def swp (data : List α) (i j : Nat) : List α :=
  match data[i]?, data[j]? with
  | some x, some y => (data.set i y).set j x
  | _, _ => data

/-- The slice `l'` comes from `l` by exchanges of elements at indices of `[a, b)`. -/
inductive Shuffle (a b : Nat) : List α → List α → Prop
  | refl (l : List α) : Shuffle a b l l
  | step (l l' : List α) (i j : Nat) : a ≤ i → i < b → a ≤ j → j < b →
      i < l.length → j < l.length → Shuffle a b (swp l i j) l' → Shuffle a b l l'

/-- The keys at the indices of `[a, b)` are in ascending order. -/
def SortedOn (key : α → Int) (a b : Nat) (data : List α) : Prop :=
  ∀ i j, a ≤ i → i < j → j < b → keyAt key data i ≤ keyAt key data j

end PdqsortSpec

section HeapSpec

variable {α : Type}

/-- In the heap of `hi` elements stored from index `first`, every node from `lo`
on has a key at least as large as the keys of its children. -/
def HeapFrom (key : α → Int) (data : List α) (first lo hi : Nat) : Prop :=
  ∀ p c, lo ≤ p → c < hi → (c = 2 * p + 1 ∨ c = 2 * p + 2) →
    keyAt key data (first + c) ≤ keyAt key data (first + p)

end HeapSpec

/-! ## Concrete scenarios -/


/-- Repository `A` of the end-to-end scenario. -/
def scenarioRepoA : Repository := ⟨some ⟨some "org"⟩, some "A"⟩

/-- Repository `B` of the end-to-end scenario. -/
def scenarioRepoB : Repository := ⟨some ⟨some "org"⟩, some "B"⟩

/-- A pull request with the given number, base label and instant of last update. -/
def scenarioPr (number : Int) (label : String) (ns : Int) : PullRequest :=
  ⟨some number, none, none, some ⟨some label⟩, ⟨ns⟩⟩

/-- The client of the end-to-end scenario: `A` has one pull request on `main`, `B` has one
on `symphonics:dev` and one on `main`, any other repository has none; no reviews. -/
def scenarioClient : Client :=
  ⟨fun _ _ => .ok ([scenarioRepoA, scenarioRepoB], 0),
   fun _ _ _ => .ok [],
   fun _ name =>
     if name = "A" then .ok [scenarioPr 1 "main" 10]
     else if name = "B" then .ok [scenarioPr 2 "symphonics:dev" 20, scenarioPr 3 "main" 30]
     else .ok []⟩

/-- A third repository. -/
def scenarioRepoZ : Repository := ⟨some ⟨some "org"⟩, some "Z"⟩

/-- A client whose pull-request fetch fails for `B` and whose review fetch fails for the
pull request 7 (one of the three of `Z`). -/
def failingClient : Client :=
  ⟨fun _ _ => .ok ([scenarioRepoA, scenarioRepoB, scenarioRepoZ], 0),
   fun _ _ number => if number = 7 then .error ⟨"reviews"⟩ else .ok [],
   fun _ name =>
     if name = "A" then .ok [scenarioPr 1 "main" 10]
     else if name = "B" then .error ⟨"pulls"⟩
     else .ok [scenarioPr 6 "main" 20, scenarioPr 7 "main" 30, scenarioPr 8 "main" 40]⟩

/-- A client with the two pages 0 and 2 of one repository each; every other page fails. -/
def pagedClient : Client :=
  ⟨fun _ page =>
     if page = 0 then .ok ([scenarioRepoA], 2)
     else if page = 2 then .ok ([scenarioRepoB], 0)
     else .error ⟨"page"⟩,
   fun _ _ _ => .ok [],
   fun _ _ => .ok []⟩

/-- A client whose page 0 has one repository and announces the page 3, which fails. -/
def brokenPageClient : Client :=
  ⟨fun _ page =>
     if page = 0 then .ok ([scenarioRepoA], 3)
     else .error ⟨"page"⟩,
   fun _ _ _ => .ok [],
   fun _ _ => .ok []⟩

/-- The record of the pull request `number` of repository `A`, updated at the
instant `ns`, without reviews. -/
def recordAt (number : Int) (ns : Int) : Containers :=
  ⟨scenarioRepoA, scenarioPr number "main" ns, []⟩

/-- A bucket of 13 records in collection order: the pull request 0 was updated
at the instant 1, the pull requests 1 to 12 all at the instant 0. -/
def unstableBucket : List Containers :=
  [recordAt 0 1, recordAt 1 0, recordAt 2 0, recordAt 3 0, recordAt 4 0, recordAt 5 0,
   recordAt 6 0, recordAt 7 0, recordAt 8 0, recordAt 9 0, recordAt 10 0, recordAt 11 0,
   recordAt 12 0]

/-- A grouping with two buckets that are out of order: five records under
`main`, and the 13 records of `unstableBucket` under `symphonics:development`. -/
def scenarioGrouping : Grouping :=
  [("main", [recordAt 1 30, recordAt 2 10, recordAt 3 50, recordAt 4 20, recordAt 5 40]),
   ("symphonics:development", unstableBucket)]

/-! # Properties -/

/-! ## Properties of the base-label normalisation -/

theorem find_tagAliases (x : String) :
    GoMap.find tagAliases x = if "symphonics:dev" = x then some "symphonics:development" else none := by
  simp [tagAliases, GoMap.find]

/-- C7: the normalisation of the base label is idempotent; the alias
`symphonics:dev` is mapped to `symphonics:development`; a label that is not a
key of `tagAliases` is returned unchanged. -/
theorem normalizeBase_idempotent :
    (∀ x : String, normalizeBase (normalizeBase x) = normalizeBase x) ∧
    normalizeBase "symphonics:dev" = "symphonics:development" ∧
    (∀ x : String, x ∉ GoMap.keys tagAliases → normalizeBase x = x) := by
  refine ⟨?_, ?_, ?_⟩
  · intro x
    by_cases h : "symphonics:dev" = x
    · subst h
      simp [normalizeBase, find_tagAliases]
    · simp [normalizeBase, find_tagAliases, h]
  · simp [normalizeBase, find_tagAliases]
  · intro x hx
    have h : ¬ "symphonics:dev" = x := by
      intro h
      apply hx
      simp [GoMap.keys, tagAliases, h.symm]
    simp [normalizeBase, find_tagAliases, h]

theorem normalizeBase_idempotent_witness :
    "main" ∉ GoMap.keys tagAliases ∧ normalizeBase "main" = "main" :=
  ⟨by decide, normalizeBase_idempotent.2.2 "main" (by decide)⟩

/-! ## The comparator -/

/-- C10: the comparator of the ranking step is a three-way comparison of the
instants of last update: its value (the saturating 64-bit difference converted to
the 64-bit `int`) is negative exactly when `a` was updated before `b`, zero
exactly when the two instants are equal, and positive exactly when `a` was
updated after `b`. -/
theorem updatedAtCmp_sign (a b : Containers) :
    (updatedAtCmp a b < 0 ↔ a.Pr.UpdatedAt.Before b.Pr.UpdatedAt = true) ∧
    (updatedAtCmp a b = 0 ↔ a.Pr.UpdatedAt = b.Pr.UpdatedAt) ∧
    (0 < updatedAtCmp a b ↔ b.Pr.UpdatedAt.Before a.Pr.UpdatedAt = true) := by
  have he : a.Pr.UpdatedAt = b.Pr.UpdatedAt ↔ a.Pr.UpdatedAt.ns = b.Pr.UpdatedAt.ns := by
    constructor
    · intro h; rw [h]
    · intro h
      cases ha : a.Pr.UpdatedAt
      cases hb : b.Pr.UpdatedAt
      rw [ha, hb] at h
      simpa using h
  rw [he]
  simp only [updatedAtCmp, toInt, Time.Sub, Time.Before, minDuration, maxDuration,
    decide_eq_true_eq]
  split_ifs with h1 h2
  · omega
  · omega
  · omega

/-! ## Go maps -/

theorem GoMap.keys_put {β : Type} (m : GoMap β) (k : String) (v : β) :
    GoMap.keys (GoMap.put m k v) = if k ∈ GoMap.keys m then GoMap.keys m else GoMap.keys m ++ [k] := by
  induction m with
  | nil => simp [GoMap.put, GoMap.keys]
  | cons p rest ih =>
    obtain ⟨k', v'⟩ := p
    simp only [GoMap.keys] at ih
    by_cases h : k' = k
    · subst h
      simp [GoMap.put, GoMap.keys]
    · have h' : ¬ k = k' := fun e => h e.symm
      simp only [GoMap.put, GoMap.keys, h, if_false, List.map_cons, List.mem_cons, h', false_or, ih]
      split_ifs <;> simp

theorem reviewerCount_keys_aux (logins : List PullRequestReview) (m : GoMap Nat)
    (hm : (GoMap.keys m).Nodup) :
    (GoMap.keys (logins.foldl (fun m r => bump m r.GetUserLogin) m)).Nodup ∧
    (GoMap.keys (logins.foldl (fun m r => bump m r.GetUserLogin) m)).toFinset =
      (GoMap.keys m).toFinset ∪ (logins.map PullRequestReview.GetUserLogin).toFinset := by
  induction logins generalizing m with
  | nil => simp [hm]
  | cons r rest ih =>
    have hk : GoMap.keys (bump m r.GetUserLogin) =
        if r.GetUserLogin ∈ GoMap.keys m then GoMap.keys m else GoMap.keys m ++ [r.GetUserLogin] :=
      GoMap.keys_put _ _ _
    have hn : (GoMap.keys (bump m r.GetUserLogin)).Nodup := by
      rw [hk]
      split_ifs with h
      · exact hm
      · exact List.Nodup.append hm (List.nodup_singleton _) (by simpa using h)
    obtain ⟨h1, h2⟩ := ih (bump m r.GetUserLogin) hn
    refine ⟨h1, ?_⟩
    simp only [List.foldl_cons, List.map_cons, List.toFinset_cons]
    rw [h2, hk]
    ext x
    split_ifs with h
    · simp only [Finset.mem_union, List.mem_toFinset, Finset.mem_insert]
      constructor
      · rintro (h | h)
        · exact Or.inl h
        · exact Or.inr (Or.inr h)
      · rintro (h' | h' | h')
        · exact Or.inl h'
        · subst h'; exact Or.inl h
        · exact Or.inr h'
    · simp only [Finset.mem_union, List.mem_toFinset, Finset.mem_insert, List.mem_append,
        List.mem_singleton]
      tauto

/-- C5: for every record the review count of the printed line is the length of
the review sequence and the reviewer count is the number of distinct reviewer
logins in it; the logins alice, bob, alice give 3 and 2. -/
theorem reviewFigures_spec :
    (∀ c : Containers,
      (reviewFigures c).1 = c.Prr.length ∧
      (reviewFigures c).2 = (c.Prr.map PullRequestReview.GetUserLogin).toFinset.card) ∧
    (∀ (repo : Repository) (pr : PullRequest),
      reviewFigures ⟨repo, pr, [⟨some ⟨some "alice"⟩⟩, ⟨some ⟨some "bob"⟩⟩, ⟨some ⟨some "alice"⟩⟩]⟩
        = (3, 2)) := by
  constructor
  · intro c
    refine ⟨rfl, ?_⟩
    obtain ⟨h1, h2⟩ := reviewerCount_keys_aux c.Prr [] (by simp [GoMap.keys])
    have : (reviewerCount c.Prr).length = (GoMap.keys (reviewerCount c.Prr)).length := by
      simp [GoMap.keys]
    simp only [reviewFigures]
    rw [this]
    simp only [reviewerCount]
    rw [← List.toFinset_card_of_nodup h1, h2]
    simp [GoMap.keys]
  · intro repo pr
    simp [reviewFigures, reviewerCount, bump, GoMap.put, GoMap.find, PullRequestReview.GetUserLogin,
      GetLogin]

theorem itemsUpTo_succ (client : Client) (org : String) (n : Nat) :
    itemsUpTo client org (n + 1) = itemsUpTo client org n ++ itemsAt client org n := by
  simp [itemsUpTo, List.range_succ, List.flatMap_append]

theorem listAllOrgReposLoop_spec (client : Client) (org : String) (n : Nat) :
    ∀ (k fuel : Nat),
    (∀ i, k ≤ i → i < n → ∃ repos next, client.ListByOrg org (pageAt client org i) = .ok (repos, next) ∧ next ≠ 0) →
    k ≤ n → n - k < fuel →
    (∀ repos, client.ListByOrg org (pageAt client org n) = .ok (repos, 0) →
      listAllOrgReposLoop client org fuel (pageAt client org k) (itemsUpTo client org k)
        = some (itemsUpTo client org (n + 1), none)) ∧
    (∀ e, client.ListByOrg org (pageAt client org n) = .error e →
      listAllOrgReposLoop client org fuel (pageAt client org k) (itemsUpTo client org k)
        = some ([], some e)) := by
  intro k fuel
  induction fuel generalizing k with
  | zero => intro _ _ h; omega
  | succ f ih =>
    intro hpre hk hf
    rcases Nat.lt_or_ge k n with hlt | hge
    · obtain ⟨repos, next, hr, hne⟩ := hpre k le_rfl hlt
      have hp : pageAt client org (k + 1) = next := by simp [pageAt, hr]
      have hi : itemsUpTo client org (k + 1) = itemsUpTo client org k ++ repos := by
        rw [itemsUpTo_succ]; simp [itemsAt, hr]
      have := ih (k + 1) (fun i hi1 hi2 => hpre i (by omega) hi2) (by omega) (by omega)
      rw [hp, hi] at this
      constructor
      · intro repos' h'
        simp only [listAllOrgReposLoop, hr, hne, if_false]
        exact this.1 repos' h'
      · intro e h'
        simp only [listAllOrgReposLoop, hr, hne, if_false]
        exact this.2 e h'
    · have hkn : k = n := by omega
      subst hkn
      constructor
      · intro repos h'
        simp only [listAllOrgReposLoop, h', if_true]
        rw [itemsUpTo_succ]; simp [itemsAt, h']
      · intro e h'
        simp only [listAllOrgReposLoop, h']

/-- C6: when the first `n` page requests of `listAllOrgRepos` succeed and announce
a further page, then with enough iterations the function returns, if the next
request reports no further page, the items of all the pages requested in request
order and no error, and, if the next request fails, that error and no
repository. -/
theorem listAllOrgRepos_all_or_nothing (client : Client) (org : String) (n fuel : Nat)
    (hpre : ∀ i, i < n → ∃ repos next,
      client.ListByOrg org (pageAt client org i) = .ok (repos, next) ∧ next ≠ 0)
    (hfuel : n < fuel) :
    (∀ repos, client.ListByOrg org (pageAt client org n) = .ok (repos, 0) →
      listAllOrgRepos client org fuel = some (itemsUpTo client org (n + 1), none)) ∧
    (∀ e, client.ListByOrg org (pageAt client org n) = .error e →
      listAllOrgRepos client org fuel = some ([], some e)) := by
  have := listAllOrgReposLoop_spec client org n 0 fuel (fun i _ hi => hpre i hi) (Nat.zero_le _)
    (by omega)
  simpa [listAllOrgRepos, pageAt, itemsUpTo] using this

/-! ## Lemmas on the grouping -/

theorem GoMap.find_put {β : Type} (m : GoMap β) (k k' : String) (v : β) :
    GoMap.find (GoMap.put m k v) k' = if k = k' then some v else GoMap.find m k' := by
  induction m with
  | nil => simp [GoMap.put, GoMap.find]
  | cons p rest ih =>
    obtain ⟨k0, v0⟩ := p
    by_cases h : k0 = k
    · subst h
      simp only [GoMap.put, if_true, GoMap.find]
      split_ifs <;> rfl
    · simp only [GoMap.put, h, if_false, GoMap.find, ih]
      by_cases h2 : k0 = k'
      · subst h2
        have : ¬ k = k0 := fun e => h e.symm
        simp [this]
      · simp [h2]

theorem GoMap.mem_iff_find {β : Type} (m : GoMap β) (hm : (GoMap.keys m).Nodup) (k : String) (v : β) :
    (k, v) ∈ m ↔ GoMap.find m k = some v := by
  induction m with
  | nil => simp [GoMap.find]
  | cons p rest ih =>
    obtain ⟨k0, v0⟩ := p
    simp only [GoMap.keys, List.map_cons, List.nodup_cons, List.mem_map, not_exists, not_and] at hm
    have ih' := ih (by simpa [GoMap.keys] using hm.2)
    by_cases h : k0 = k
    · subst h
      simp only [List.mem_cons, Prod.mk.injEq, true_and, GoMap.find, if_true, Option.some.injEq]
      constructor
      · rintro (h | h)
        · exact h.symm
        · exact absurd rfl (hm.1 _ h)
      · intro h; exact Or.inl h.symm
    · have h' : ¬ k = k0 := fun e => h e.symm
      simp [GoMap.find, h, h', ih']

theorem Grouping.flatten_push (g : Grouping) (k : String) (c : Containers) :
    (Grouping.flatten (g.push k c)).Perm (Grouping.flatten g ++ [c]) := by
  induction g with
  | nil => simp [Grouping.push, GoMap.put, GoMap.find, Grouping.flatten]
  | cons p rest ih =>
    obtain ⟨k0, v0⟩ := p
    by_cases h : k0 = k
    · subst h
      simp only [Grouping.push, GoMap.find, if_true, Option.getD_some, GoMap.put,
        Grouping.flatten, List.flatMap_cons]
      simp only [List.append_assoc]
      exact List.Perm.append_left _ List.perm_append_comm
    · simp only [Grouping.push, GoMap.find, h, if_false, GoMap.put, Grouping.flatten,
        List.flatMap_cons, List.append_assoc]
      exact List.Perm.append_left _ ih

theorem pushAll_flatten (recs : List Containers) (g : Grouping) :
    (Grouping.flatten (pushAll g recs)).Perm (Grouping.flatten g ++ recs) := by
  induction recs generalizing g with
  | nil => simp [pushAll]
  | cons c rest ih =>
    simp only [pushAll, List.foldl_cons]
    refine (ih (g.push c.base c)).trans ?_
    have := (Grouping.flatten_push g c.base c).append_right rest
    simpa using this

theorem pushAll_keys_nodup (recs : List Containers) (g : Grouping) (hg : (GoMap.keys g).Nodup) :
    (GoMap.keys (pushAll g recs)).Nodup := by
  induction recs generalizing g with
  | nil => simpa [pushAll] using hg
  | cons c rest ih =>
    simp only [pushAll, List.foldl_cons]
    apply ih
    simp only [Grouping.push]
    rw [GoMap.keys_put]
    split_ifs with h
    · exact hg
    · exact List.Nodup.append hg (List.nodup_singleton _) (by simpa using h)

theorem pushAll_find (recs : List Containers) (g : Grouping) (seen : List Containers)
    (hg : ∀ k, GoMap.find g k = nonEmpty (seen.filter (fun c => c.base = k))) :
    ∀ k, GoMap.find (pushAll g recs) k = nonEmpty ((seen ++ recs).filter (fun c => c.base = k)) := by
  induction recs generalizing g seen with
  | nil => simpa [pushAll] using hg
  | cons c rest ih =>
    intro k
    simp only [pushAll, List.foldl_cons]
    have := ih (g.push c.base c) (seen ++ [c]) ?_ k
    · simpa [pushAll] using this
    · intro k'
      simp only [Grouping.push, GoMap.find_put, List.filter_append]
      by_cases h : c.base = k'
      · subst h
        simp only [if_true, hg, nonEmpty]
        split_ifs with h1 h2 h2
        · simp at h2
        · simp [h1]
        · simp at h2
        · simp
      · simp [h, hg]

/-! ## Lemmas on the loops -/

theorem reviewLoop_cons (client : Client) (repo : Repository) (pr : PullRequest)
    (prs : List PullRequest) (g : Grouping) :
    reviewLoop client repo (pr :: prs) g =
      match client.ListReviews repo.GetOwnerLogin repo.GetName pr.GetNumber with
      | .error err => .error err
      | .ok reviews =>
        reviewLoop client repo prs
          (g.push (normalizeBase pr.GetBaseLabel) ⟨repo, pr, reviews⟩) := rfl

theorem repoLoop_cons (client : Client) (repo : Repository) (repos : List Repository)
    (g : Grouping) (countPr : Nat) (out : List Printed) :
    repoLoop client (repo :: repos) g countPr out =
      match client.List repo.GetOwnerLogin repo.GetName with
      | .error err => ⟨none, some err, out⟩
      | .ok prs =>
        if prs.length = 0 then repoLoop client repos g countPr out
        else
          match reviewLoop client repo prs g with
          | .error err => ⟨none, some err, out ++ [Printed.repoLine prs.length repo.GetName]⟩
          | .ok g1 => repoLoop client repos g1 (countPr + prs.length)
              (out ++ [Printed.repoLine prs.length repo.GetName]) := rfl

theorem reviewLoop_ok (client : Client) (repo : Repository) (prs : List PullRequest)
    (g : Grouping) (h : ReviewsSucceed client repo prs) :
    reviewLoop client repo prs g =
      .ok (pushAll g (prs.map fun pr => ⟨repo, pr, fetchedReviews client repo pr⟩)) := by
  induction prs generalizing g with
  | nil => simp [reviewLoop, pushAll]
  | cons pr rest ih =>
    obtain ⟨reviews, hr⟩ := h pr (List.mem_cons_self _ _)
    have hrest : ReviewsSucceed client repo rest := fun p hp => h p (List.mem_cons_of_mem _ hp)
    simp only [reviewLoop, hr, ih _ hrest, List.map_cons, pushAll, List.foldl_cons,
      fetchedReviews, Containers.base]

theorem reviewLoop_error (client : Client) (repo : Repository) (p1 p2 : List PullRequest)
    (pr : PullRequest) (e : GoError) (g : Grouping) (h : ReviewsSucceed client repo p1)
    (he : client.ListReviews repo.GetOwnerLogin repo.GetName pr.GetNumber = .error e) :
    reviewLoop client repo (p1 ++ pr :: p2) g = .error e := by
  induction p1 generalizing g with
  | nil => simp [reviewLoop, he]
  | cons q rest ih =>
    obtain ⟨reviews, hr⟩ := h q (List.mem_cons_self _ _)
    have hrest : ReviewsSucceed client repo rest := fun p hp => h p (List.mem_cons_of_mem _ hp)
    rw [List.cons_append, reviewLoop_cons]
    simp only [hr, ih _ hrest]

theorem reviewLoop_ok_inv (client : Client) (repo : Repository) (prs : List PullRequest)
    (g g' : Grouping) (h : reviewLoop client repo prs g = .ok g') :
    ReviewsSucceed client repo prs := by
  induction prs generalizing g with
  | nil => intro pr hpr; simp at hpr
  | cons q rest ih =>
    simp only [reviewLoop] at h
    split at h
    · simp at h
    · rename_i reviews hr
      intro pr hpr
      rcases List.mem_cons.1 hpr with rfl | hmem
      · exact ⟨reviews, hr⟩
      · exact ih _ h pr hmem

theorem repoLoop_prefix (client : Client) (pre rest : List Repository)
    (h : FetchesSucceed client pre) (g : Grouping) (n : Nat) (out : List Printed) :
    ∃ n' out', repoLoop client (pre ++ rest) g n out =
      repoLoop client rest (pushAll g (allRecords client pre)) n' out' := by
  induction pre generalizing g n out with
  | nil => exact ⟨n, out, by simp [allRecords, pushAll]⟩
  | cons r pre ih =>
    obtain ⟨prs, hl, hrv⟩ := h r (List.mem_cons_self _ _)
    have hpre : FetchesSucceed client pre := fun p hp => h p (List.mem_cons_of_mem _ hp)
    have hrec : allRecords client (r :: pre) =
        (prs.map fun pr => ⟨r, pr, fetchedReviews client r pr⟩) ++ allRecords client pre := by
      simp [allRecords, recordsOf, fetchedPrs, hl]
    have hpa : ∀ a b : List Containers, pushAll g (a ++ b) = pushAll (pushAll g a) b := by
      intro a b; simp [pushAll, List.foldl_append]
    rw [List.cons_append, repoLoop_cons]
    simp only [hl]
    split_ifs with h0
    · have : prs = [] := List.length_eq_zero.1 h0
      subst this
      obtain ⟨n', out', e⟩ := ih hpre g n out
      exact ⟨n', out', by rw [e, hrec]; simp⟩
    · simp only [reviewLoop_ok client r prs g hrv]
      obtain ⟨n', out', e⟩ := ih hpre (pushAll g (prs.map fun pr => ⟨r, pr, fetchedReviews client r pr⟩))
        (n + prs.length) (out ++ [Printed.repoLine prs.length r.GetName])
      exact ⟨n', out', by rw [e, hrec, hpa]⟩

theorem repoLoop_outcome (client : Client) (repos : List Repository) (g : Grouping) (n : Nat)
    (out : List Printed) :
    ((repoLoop client repos g n out).grouping = none ↔ (repoLoop client repos g n out).err ≠ none) ∧
    ((repoLoop client repos g n out).err = none → FetchesSucceed client repos) := by
  induction repos generalizing g n out with
  | nil =>
    simp only [repoLoop]
    exact ⟨by simp, fun _ r hr => by simp at hr⟩
  | cons r rest ih =>
    simp only [repoLoop]
    split
    · simp
    · rename_i prs hl
      split_ifs with h0
      · have : prs = [] := List.length_eq_zero.1 h0
        subst this
        refine ⟨(ih g n out).1, fun he => ?_⟩
        intro p hp
        rcases List.mem_cons.1 hp with rfl | hmem
        · exact ⟨[], hl, fun pr hpr => by simp at hpr⟩
        · exact (ih g n out).2 he p hmem
      · split
        · simp
        · rename_i g1 hrv
          refine ⟨(ih _ _ _).1, fun he => ?_⟩
          intro p hp
          rcases List.mem_cons.1 hp with rfl | hmem
          · exact ⟨prs, hl, reviewLoop_ok_inv client p prs g g1 hrv⟩
          · exact (ih _ _ _).2 he p hmem

/-! ## The collection -/

/-- C3: when every fetch succeeds, `listPrsPerBase` returns a map and no error;
the keys of the map are pairwise distinct, its buckets together hold exactly the
records of the fetched pull requests (each as often as it was fetched), every
bucket is non-empty and holds, in fetch order, exactly the records whose
normalised base label is its key, and every record lies in the bucket of its
normalised base label and in no other. -/
theorem listPrsPerBase_partition (client : Client) (repos : List Repository)
    (h : FetchesSucceed client repos) :
    ∃ g : Grouping,
      (listPrsPerBase repos client).grouping = some g ∧
      (listPrsPerBase repos client).err = none ∧
      (GoMap.keys g).Nodup ∧
      (Grouping.flatten g).Perm (allRecords client repos) ∧
      (∀ k bucket, (k, bucket) ∈ g → bucket ≠ [] ∧
        bucket = (allRecords client repos).filter (fun c => normalizeBase c.Pr.GetBaseLabel = k)) ∧
      (∀ c ∈ allRecords client repos, ∃ bucket, (normalizeBase c.Pr.GetBaseLabel, bucket) ∈ g ∧
        c ∈ bucket ∧ ∀ k bucket', (k, bucket') ∈ g → c ∈ bucket' →
          k = normalizeBase c.Pr.GetBaseLabel ∧ bucket' = bucket) := by
  obtain ⟨n', out', e⟩ := repoLoop_prefix client repos [] h [] 0 []
  simp only [List.append_nil] at e
  have hnd : (GoMap.keys (pushAll [] (allRecords client repos))).Nodup :=
    pushAll_keys_nodup _ _ (by simp [GoMap.keys])
  have hfind := pushAll_find (allRecords client repos) [] [] (by intro k; simp [GoMap.find, nonEmpty])
  simp only [List.nil_append] at hfind
  have hmem : ∀ k bucket, (k, bucket) ∈ pushAll [] (allRecords client repos) → bucket ≠ [] ∧
      bucket = (allRecords client repos).filter (fun c => normalizeBase c.Pr.GetBaseLabel = k) := by
    intro k bucket hkb
    have := (GoMap.mem_iff_find _ hnd k bucket).1 hkb
    rw [hfind k] at this
    simp only [nonEmpty, Containers.base] at this
    split_ifs at this with h0
    simp only [Option.some.injEq] at this
    exact ⟨by rw [← this]; exact h0, this.symm⟩
  refine ⟨pushAll [] (allRecords client repos), ?_, ?_, hnd, ?_, hmem, ?_⟩
  · simp [listPrsPerBase, e, repoLoop]
  · simp [listPrsPerBase, e, repoLoop]
  · simpa [Grouping.flatten] using pushAll_flatten (allRecords client repos) []
  · intro c hc
    have hne : (allRecords client repos).filter (fun c' => c'.base = c.base) ≠ [] := by
      intro h0
      have : c ∈ (allRecords client repos).filter (fun c' => c'.base = c.base) := by
        simp [List.mem_filter, hc]
      rw [h0] at this
      simp at this
    have hf := hfind c.base
    simp only [nonEmpty, hne, if_false] at hf
    refine ⟨_, (GoMap.mem_iff_find _ hnd _ _).2 hf, by simp [List.mem_filter, hc], ?_⟩
    intro k bucket' hkb hcb
    obtain ⟨_, hb⟩ := hmem k bucket' hkb
    rw [hb] at hcb
    have hk : normalizeBase c.Pr.GetBaseLabel = k := by
      simpa using (List.mem_filter.1 hcb).2
    subst hk
    exact ⟨rfl, hb⟩

theorem listPrsPerBase_partition_witness :
    FetchesSucceed scenarioClient [scenarioRepoA, scenarioRepoB] ∧
    (listPrsPerBase [scenarioRepoA, scenarioRepoB] scenarioClient).grouping =
      some [("main", [⟨scenarioRepoA, scenarioPr 1 "main" 10, []⟩,
                      ⟨scenarioRepoB, scenarioPr 3 "main" 30, []⟩]),
            ("symphonics:development", [⟨scenarioRepoB, scenarioPr 2 "symphonics:dev" 20, []⟩])] ∧
    ∃ g : Grouping,
      (listPrsPerBase [scenarioRepoA, scenarioRepoB] scenarioClient).grouping = some g ∧
      (listPrsPerBase [scenarioRepoA, scenarioRepoB] scenarioClient).err = none ∧
      (GoMap.keys g).Nodup ∧
      (Grouping.flatten g).Perm (allRecords scenarioClient [scenarioRepoA, scenarioRepoB]) ∧
      (∀ k bucket, (k, bucket) ∈ g → bucket ≠ [] ∧
        bucket = (allRecords scenarioClient [scenarioRepoA, scenarioRepoB]).filter
          (fun c => normalizeBase c.Pr.GetBaseLabel = k)) ∧
      (∀ c ∈ allRecords scenarioClient [scenarioRepoA, scenarioRepoB],
        ∃ bucket, (normalizeBase c.Pr.GetBaseLabel, bucket) ∈ g ∧
        c ∈ bucket ∧ ∀ k bucket', (k, bucket') ∈ g → c ∈ bucket' →
          k = normalizeBase c.Pr.GetBaseLabel ∧ bucket' = bucket) :=
  have hs : FetchesSucceed scenarioClient [scenarioRepoA, scenarioRepoB] := by
    intro repo hrepo
    simp only [List.mem_cons, List.mem_singleton, List.not_mem_nil, or_false] at hrepo
    rcases hrepo with rfl | rfl
    · exact ⟨[scenarioPr 1 "main" 10], rfl, fun pr _ => ⟨[], rfl⟩⟩
    · exact ⟨[scenarioPr 2 "symphonics:dev" 20, scenarioPr 3 "main" 30], rfl,
        fun pr _ => ⟨[], rfl⟩⟩
  ⟨hs, by decide, listPrsPerBase_partition scenarioClient [scenarioRepoA, scenarioRepoB] hs⟩


/-- C4: if the repositories before `repo` are fetched without error and the
pull-request fetch for `repo` fails, or the review fetch for one of its pull
requests fails after the earlier ones succeeded, `listPrsPerBase` returns that
error and the `nil` map; in general the map is `nil` exactly when an error is
returned, and no error is returned only if every fetch succeeded. -/
theorem listPrsPerBase_abort (client : Client) :
    (∀ (pre post : List Repository) (repo : Repository) (e : GoError),
      FetchesSucceed client pre →
      client.List repo.GetOwnerLogin repo.GetName = .error e →
      (listPrsPerBase (pre ++ repo :: post) client).grouping = none ∧
      (listPrsPerBase (pre ++ repo :: post) client).err = some e) ∧
    (∀ (pre post : List Repository) (repo : Repository) (p1 p2 : List PullRequest)
      (pr : PullRequest) (e : GoError),
      FetchesSucceed client pre →
      client.List repo.GetOwnerLogin repo.GetName = .ok (p1 ++ pr :: p2) →
      ReviewsSucceed client repo p1 →
      client.ListReviews repo.GetOwnerLogin repo.GetName pr.GetNumber = .error e →
      (listPrsPerBase (pre ++ repo :: post) client).grouping = none ∧
      (listPrsPerBase (pre ++ repo :: post) client).err = some e) ∧
    (∀ repos : List Repository,
      ((listPrsPerBase repos client).grouping = none ↔ (listPrsPerBase repos client).err ≠ none) ∧
      ((listPrsPerBase repos client).err = none → FetchesSucceed client repos)) := by
  refine ⟨?_, ?_, ?_⟩
  · intro pre post repo e hpre he
    obtain ⟨n', out', h⟩ := repoLoop_prefix client pre (repo :: post) hpre [] 0 []
    simp only [listPrsPerBase, h, repoLoop_cons, he, and_self]
  · intro pre post repo p1 p2 pr e hpre hl hp1 he
    obtain ⟨n', out', h⟩ := repoLoop_prefix client pre (repo :: post) hpre [] 0 []
    have hne : ¬ (p1 ++ pr :: p2).length = 0 := by simp
    simp only [listPrsPerBase, h, repoLoop_cons, hl, hne, if_false,
      reviewLoop_error client repo p1 p2 pr e _ hp1 he, and_self]
  · intro repos
    exact repoLoop_outcome client repos [] 0 []

theorem listPrsPerBase_abort_witness :
    ((listPrsPerBase ([scenarioRepoA] ++ scenarioRepoB :: [scenarioRepoZ]) failingClient).grouping = none ∧
     (listPrsPerBase ([scenarioRepoA] ++ scenarioRepoB :: [scenarioRepoZ]) failingClient).err
        = some ⟨"pulls"⟩) ∧
    ((listPrsPerBase ([scenarioRepoA] ++ scenarioRepoZ :: [scenarioRepoB]) failingClient).grouping = none ∧
     (listPrsPerBase ([scenarioRepoA] ++ scenarioRepoZ :: [scenarioRepoB]) failingClient).err
        = some ⟨"reviews"⟩) ∧
    FetchesSucceed failingClient [scenarioRepoA] :=
  have hs : FetchesSucceed failingClient [scenarioRepoA] := by
    intro repo hrepo
    simp only [List.mem_singleton] at hrepo
    subst hrepo
    refine ⟨[scenarioPr 1 "main" 10], rfl, fun pr hpr => ?_⟩
    simp only [List.mem_singleton] at hpr
    subst hpr
    exact ⟨[], rfl⟩
  have hr : ReviewsSucceed failingClient scenarioRepoZ [scenarioPr 6 "main" 20] := by
    intro pr hpr
    simp only [List.mem_singleton] at hpr
    subst hpr
    exact ⟨[], rfl⟩
  ⟨(listPrsPerBase_abort failingClient).1 [scenarioRepoA] [scenarioRepoZ] scenarioRepoB
      ⟨"pulls"⟩ hs rfl,
   (listPrsPerBase_abort failingClient).2.1 [scenarioRepoA] [scenarioRepoB] scenarioRepoZ
      [scenarioPr 6 "main" 20] [scenarioPr 8 "main" 40] (scenarioPr 7 "main" 30) ⟨"reviews"⟩
      hs rfl hr rfl,
   ((listPrsPerBase_abort failingClient).2.2 [scenarioRepoA]).2 (by decide)⟩

theorem repoLoop_skip (client : Client) (pre post : List Repository) (repo : Repository)
    (h : client.List repo.GetOwnerLogin repo.GetName = .ok [])
    (g : Grouping) (n : Nat) (out : List Printed) :
    repoLoop client (pre ++ repo :: post) g n out = repoLoop client (pre ++ post) g n out := by
  induction pre generalizing g n out with
  | nil => simp only [List.nil_append, repoLoop_cons, h, List.length_nil, if_true]
  | cons r pre ih =>
    rw [List.cons_append, List.cons_append, repoLoop_cons, repoLoop_cons]
    simp only [ih]

/-- C9: a repository whose pull-request fetch gives the empty list can be
inserted anywhere in the input of `listPrsPerBase` without changing the result
(map, error and output); on a list of such repositories only, the result is the
empty map and no error. -/
theorem listPrsPerBase_skip_empty (client : Client) :
    (∀ (pre post : List Repository) (repo : Repository),
      client.List repo.GetOwnerLogin repo.GetName = .ok [] →
      listPrsPerBase (pre ++ repo :: post) client = listPrsPerBase (pre ++ post) client) ∧
    (∀ repos : List Repository,
      (∀ repo ∈ repos, client.List repo.GetOwnerLogin repo.GetName = .ok []) →
      listPrsPerBase repos client = ⟨some [], none, [Printed.total 0]⟩) := by
  constructor
  · intro pre post repo h
    exact repoLoop_skip client pre post repo h [] 0 []
  · intro repos h
    induction repos with
    | nil => rfl
    | cons r rest ih =>
      have := repoLoop_skip client [] rest r (h r (List.mem_cons_self _ _)) [] 0 []
      simp only [List.nil_append] at this
      simp only [listPrsPerBase] at ih ⊢
      rw [this]
      exact ih (fun repo hrepo => h repo (List.mem_cons_of_mem _ hrepo))

theorem listPrsPerBase_skip_empty_witness :
    listPrsPerBase ([scenarioRepoA] ++ scenarioRepoZ :: [scenarioRepoB]) scenarioClient
      = listPrsPerBase ([scenarioRepoA] ++ [scenarioRepoB]) scenarioClient ∧
    listPrsPerBase [scenarioRepoZ, scenarioRepoZ] scenarioClient = ⟨some [], none, [Printed.total 0]⟩ :=
  ⟨(listPrsPerBase_skip_empty scenarioClient).1 [scenarioRepoA] [scenarioRepoB] scenarioRepoZ rfl,
   (listPrsPerBase_skip_empty scenarioClient).2 [scenarioRepoZ, scenarioRepoZ]
     (fun repo hrepo => by
       simp only [List.mem_cons, List.mem_singleton, List.not_mem_nil, or_false, or_self] at hrepo
       subst hrepo
       rfl)⟩

theorem listAllOrgRepos_all_or_nothing_witness :
    listAllOrgRepos pagedClient "org" 5 = some ([scenarioRepoA, scenarioRepoB], none) ∧
    listAllOrgRepos brokenPageClient "org" 5 = some ([], some ⟨"page"⟩) :=
  ⟨(listAllOrgRepos_all_or_nothing pagedClient "org" 1 5
      (fun i hi => by
        have : i = 0 := by omega
        subst this
        exact ⟨[scenarioRepoA], 2, rfl, by decide⟩)
      (by decide)).1 [scenarioRepoB] rfl,
   (listAllOrgRepos_all_or_nothing brokenPageClient "org" 1 5
      (fun i hi => by
        have : i = 0 := by omega
        subst this
        exact ⟨[scenarioRepoA], 3, rfl, by decide⟩)
      (by decide)).2 ⟨"page"⟩ rfl⟩

/-! ## Exchanges of two elements and shuffles of a range -/

section PdqsortBasics

variable {α : Type}

/-- An exchange at two indices in range does not panic. -/
theorem swapAt_eq (data : List α) (i j : Nat) (hi : i < data.length) (hj : j < data.length) :
    swapAt data i j = some (swp data i j) := by
  simp [swapAt, swp, List.getElem?_eq_getElem hi, List.getElem?_eq_getElem hj]

/-- A comparison at two indices in range does not panic and compares the keys. -/
theorem lessAt_eq (cmp : α → α → Int) (key : α → Int)
    (hk : ∀ x y, cmp x y < 0 ↔ key x < key y) (data : List α) (i j : Nat)
    (hi : i < data.length) (hj : j < data.length) :
    lessAt cmp data i j = some (decide (keyAt key data i < keyAt key data j)) := by
  simp [lessAt, keyAt, List.getElem?_eq_getElem hi, List.getElem?_eq_getElem hj, hk]

theorem swp_length (data : List α) (i j : Nat) : (swp data i j).length = data.length := by
  unfold swp
  split <;> simp

theorem swp_getElem? (data : List α) (i j k : Nat) (hi : i < data.length) (hj : j < data.length) :
    (swp data i j)[k]? = if k = j then data[i]? else if k = i then data[j]? else data[k]? := by
  simp only [swp, List.getElem?_eq_getElem hi, List.getElem?_eq_getElem hj]
  by_cases h1 : k = j
  · subst h1
    simp [List.getElem?_set, hj]
  · by_cases h2 : k = i
    · subst h2
      have : ¬ j = k := fun e => h1 e.symm
      simp [List.getElem?_set, this, hi, h1]
    · have h1' : ¬ j = k := fun e => h1 e.symm
      have h2' : ¬ i = k := fun e => h2 e.symm
      simp [List.getElem?_set, h1, h2, h1', h2']

theorem keyAt_swp (key : α → Int) (data : List α) (i j k : Nat) (hi : i < data.length)
    (hj : j < data.length) :
    keyAt key (swp data i j) k =
      if k = j then keyAt key data i else if k = i then keyAt key data j else keyAt key data k := by
  simp only [keyAt, swp_getElem? data i j k hi hj]
  split_ifs <;> rfl

theorem perm_set_head (l : List α) (x : α) (j : Nat) (hj : j < l.length) :
    (l[j] :: l.set j x).Perm (x :: l) := by
  classical
  rw [List.perm_iff_count]
  intro y
  have h1 := List.boole_getElem_le_count y l j hj
  simp only [List.count_cons, List.count_set _ _ _ _ hj, beq_iff_eq] at h1 ⊢
  split_ifs at h1 ⊢ <;> omega

/-- An exchange permutes the slice. -/
theorem swp_perm (data : List α) (i j : Nat) : (swp data i j).Perm data := by
  induction data generalizing i j with
  | nil => simp [swp]
  | cons x l ih =>
    cases i with
    | zero =>
      cases j with
      | zero => simp [swp]
      | succ j =>
        by_cases hj : j < l.length
        · simp only [swp, List.getElem?_cons_zero, List.getElem?_cons_succ,
            List.getElem?_eq_getElem hj, List.set_cons_zero, List.set_cons_succ]
          exact perm_set_head l x j hj
        · simp [swp, List.getElem?_eq_none (not_lt.1 hj)]
    | succ i =>
      cases j with
      | zero =>
        by_cases hi : i < l.length
        · simp only [swp, List.getElem?_cons_zero, List.getElem?_cons_succ,
            List.getElem?_eq_getElem hi, List.set_cons_zero, List.set_cons_succ]
          exact perm_set_head l x i hi
        · simp [swp, List.getElem?_eq_none (not_lt.1 hi)]
      | succ j =>
        have := ih i j
        by_cases hi : i < l.length
        · by_cases hj : j < l.length
          · simp only [swp, List.getElem?_cons_succ, List.getElem?_eq_getElem hi,
              List.getElem?_eq_getElem hj, List.set_cons_succ] at this ⊢
            exact List.Perm.cons x this
          · simp [swp, List.getElem?_eq_none (not_lt.1 hj)]
        · simp [swp, List.getElem?_eq_none (not_lt.1 hi)]

theorem Shuffle.length_eq {a b : Nat} {l l' : List α} (h : Shuffle a b l l') :
    l'.length = l.length := by
  induction h with
  | refl l => rfl
  | step l l' i j _ _ _ _ _ _ _ ih => rw [ih, swp_length]

theorem Shuffle.getElem?_outside {a b : Nat} {l l' : List α} (h : Shuffle a b l l') (k : Nat)
    (hk : k < a ∨ b ≤ k) : l'[k]? = l[k]? := by
  induction h with
  | refl l => rfl
  | step l l' i j h1 h2 h3 h4 h5 h6 _ ih =>
    rw [ih, swp_getElem? l i j k h5 h6]
    have : ¬ k = j := by omega
    have : ¬ k = i := by omega
    simp [*]

theorem Shuffle.keyAt_outside {a b : Nat} {l l' : List α} (h : Shuffle a b l l')
    (key : α → Int) (k : Nat) (hk : k < a ∨ b ≤ k) : keyAt key l' k = keyAt key l k := by
  simp only [keyAt, h.getElem?_outside k hk]

theorem Shuffle.perm {a b : Nat} {l l' : List α} (h : Shuffle a b l l') : l'.Perm l := by
  induction h with
  | refl l => exact List.Perm.refl l
  | step l l' i j _ _ _ _ _ _ _ ih => exact ih.trans (swp_perm l i j)

theorem Shuffle.trans {a b : Nat} {l l' l'' : List α} (h : Shuffle a b l l')
    (h' : Shuffle a b l' l'') : Shuffle a b l l'' := by
  induction h with
  | refl l => exact h'
  | step l l' i j h1 h2 h3 h4 h5 h6 _ ih => exact Shuffle.step l _ i j h1 h2 h3 h4 h5 h6 (ih h')

theorem Shuffle.mono {a b a' b' : Nat} {l l' : List α} (h : Shuffle a b l l') (ha : a' ≤ a)
    (hb : b ≤ b') : Shuffle a' b' l l' := by
  induction h with
  | refl l => exact Shuffle.refl l
  | step l l' i j h1 h2 h3 h4 h5 h6 _ ih =>
    exact Shuffle.step l _ i j (by omega) (by omega) (by omega) (by omega) h5 h6 ih

theorem Shuffle.swap {a b : Nat} (l : List α) (i j : Nat) (h1 : a ≤ i) (h2 : i < b) (h3 : a ≤ j)
    (h4 : j < b) (h5 : i < l.length) (h6 : j < l.length) : Shuffle a b l (swp l i j) :=
  Shuffle.step l _ i j h1 h2 h3 h4 h5 h6 (Shuffle.refl _)

/-- What holds for the keys of a range holds for them after a shuffle of the range. -/
theorem Shuffle.forall_keyAt {a b : Nat} {l l' : List α} (h : Shuffle a b l l') (key : α → Int)
    (P : Int → Prop) (hP : ∀ k, a ≤ k → k < b → P (keyAt key l k)) :
    ∀ k, a ≤ k → k < b → P (keyAt key l' k) := by
  induction h with
  | refl l => exact hP
  | step l l' i j h1 h2 h3 h4 h5 h6 _ ih =>
    apply ih
    intro k hk1 hk2
    rw [keyAt_swp key l i j k h5 h6]
    split_ifs
    · exact hP i h1 h2
    · exact hP j h3 h4
    · exact hP k hk1 hk2

theorem Shuffle.forall_keyAt_of_le {a b A B : Nat} {l l' : List α} (h : Shuffle a b l l')
    (ha : A ≤ a) (hb : b ≤ B) (key : α → Int)
    (P : Int → Prop) (hP : ∀ k, A ≤ k → k < B → P (keyAt key l k)) :
    ∀ k, A ≤ k → k < B → P (keyAt key l' k) :=
  (h.mono ha hb).forall_keyAt key P hP

/-- The element before the range stays a lower bound of the range under a shuffle. -/
theorem Shuffle.sentinel {a b : Nat} {l l' : List α} (h : Shuffle a b l l') (key : α → Int)
    (hs : 0 < a → ∀ k, a ≤ k → k < b → keyAt key l (a - 1) ≤ keyAt key l k) :
    0 < a → ∀ k, a ≤ k → k < b → keyAt key l' (a - 1) ≤ keyAt key l' k := by
  intro ha0 k hk1 hk2
  rw [h.keyAt_outside key (a - 1) (by omega)]
  exact h.forall_keyAt key (fun v => keyAt key l (a - 1) ≤ v) (hs ha0) k hk1 hk2

theorem Shuffle.sortedOn_outside {a b c d : Nat} {l l' : List α} (h : Shuffle a b l l')
    (key : α → Int) (hs : SortedOn key c d l) (hcd : d ≤ a ∨ b ≤ c) : SortedOn key c d l' := by
  intro i j h1 h2 h3
  rw [h.keyAt_outside key i (by omega), h.keyAt_outside key j (by omega)]
  exact hs i j h1 h2 h3

theorem sortedOn_of_adjacent (key : α → Int) (a b : Nat) (l : List α)
    (h : ∀ i, a ≤ i → i + 1 < b → keyAt key l i ≤ keyAt key l (i + 1)) : SortedOn key a b l := by
  intro i j h1 h2 h3
  induction j with
  | zero => omega
  | succ j ih =>
    rcases Nat.lt_or_ge i j with hlt | hge
    · exact le_trans (ih hlt (by omega)) (h j (by omega) h3)
    · have : i = j := by omega
      subst this
      exact h i h1 h3

/-- A slice sorted on its whole range is pairwise in order. -/
theorem sortedOn_pairwise (key : α → Int) (l : List α) (h : SortedOn key 0 l.length l) :
    l.Pairwise (fun x y => key x ≤ key y) := by
  rw [List.pairwise_iff_getElem]
  intro i j hi hj hij
  have := h i j (Nat.zero_le _) hij hj
  simpa [keyAt, List.getElem?_eq_getElem hi, List.getElem?_eq_getElem hj] using this

end PdqsortBasics

/-! ## Insertion sort -/

section InsertionSort

variable {α : Type}

theorem keyAt_swp_cases (key : α → Int) (data : List α) (i j k : Nat) (hi : i < data.length)
    (hj : j < data.length) :
    (k = j → keyAt key (swp data i j) k = keyAt key data i) ∧
    (k ≠ j → k = i → keyAt key (swp data i j) k = keyAt key data j) ∧
    (k ≠ j → k ≠ i → keyAt key (swp data i j) k = keyAt key data k) := by
  rw [keyAt_swp key data i j k hi hj]
  refine ⟨fun h => by simp [h], fun h1 h2 => by subst h2; simp [h1], fun h1 h2 => by simp [h1, h2]⟩

theorem keyAt_swp_fst (key : α → Int) (data : List α) (i j : Nat) (hi : i < data.length)
    (hj : j < data.length) : keyAt key (swp data i j) j = keyAt key data i :=
  (keyAt_swp_cases key data i j j hi hj).1 rfl

theorem keyAt_swp_snd (key : α → Int) (data : List α) (i j : Nat) (hi : i < data.length)
    (hj : j < data.length) : keyAt key (swp data i j) i = keyAt key data j := by
  by_cases h : i = j
  · subst h
    exact keyAt_swp_fst key data i i hi hi
  · exact (keyAt_swp_cases key data i j i hi hj).2.1 h rfl

theorem keyAt_swp_ne (key : α → Int) (data : List α) (i j k : Nat) (hi : i < data.length)
    (hj : j < data.length) (h1 : k ≠ i) (h2 : k ≠ j) :
    keyAt key (swp data i j) k = keyAt key data k :=
  (keyAt_swp_cases key data i j k hi hj).2.2 h2 h1

/-- One step of an insertion: after the exchange of the inserted element with its
greater left neighbour the invariant holds one place to the left. -/
theorem insert_step (key : α → Int) (data : List α) (a i j : Nat) (hji : j + 1 ≤ i)
    (hi : i < data.length) (h1 : SortedOn key a (j + 1) data)
    (h2 : SortedOn key (j + 1) (i + 1) data)
    (h3 : ∀ p q, a ≤ p → p < j + 1 → j + 1 < q → q ≤ i → keyAt key data p ≤ keyAt key data q)
    (haj : a ≤ j) (hlt : keyAt key data (j + 1) < keyAt key data j) :
    SortedOn key a j (swp data (j + 1) j) ∧ SortedOn key j (i + 1) (swp data (j + 1) j) ∧
      ∀ p q, a ≤ p → p < j → j < q → q ≤ i →
        keyAt key (swp data (j + 1) j) p ≤ keyAt key (swp data (j + 1) j) q := by
  have hj1 : j + 1 < data.length := by omega
  have hj0 : j < data.length := by omega
  have hnj : keyAt key (swp data (j + 1) j) j = keyAt key data (j + 1) :=
    keyAt_swp_fst key data (j + 1) j hj1 hj0
  have hnj1 : keyAt key (swp data (j + 1) j) (j + 1) = keyAt key data j :=
    keyAt_swp_snd key data (j + 1) j hj1 hj0
  have hne : ∀ k, k ≠ j + 1 → k ≠ j → keyAt key (swp data (j + 1) j) k = keyAt key data k :=
    fun k => keyAt_swp_ne key data (j + 1) j k hj1 hj0
  refine ⟨?_, ?_, ?_⟩
  · intro p q hp hpq hq
    rw [hne p (by omega) (by omega), hne q (by omega) (by omega)]
    exact h1 p q hp hpq (by omega)
  · intro p q hp hpq hq
    rcases Nat.lt_or_ge j p with hp1 | hp1
    · rw [hne q (by omega) (by omega)]
      rcases Nat.lt_or_ge (j + 1) p with hp2 | hp2
      · rw [hne p (by omega) (by omega)]
        exact h2 p q (by omega) hpq hq
      · have : p = j + 1 := by omega
        subst this
        rw [hnj1]
        exact h3 j q haj (by omega) hpq (by omega)
    · have : p = j := by omega
      subst this
      rw [hnj]
      rcases Nat.lt_or_ge (p + 1) q with hq1 | hq1
      · rw [hne q (by omega) (by omega)]
        exact h2 (p + 1) q (le_refl _) hq1 hq
      · have : q = p + 1 := by omega
        subst this
        rw [hnj1]
        exact le_of_lt hlt
  · intro p q hp hpj hjq hq
    rw [hne p (by omega) (by omega)]
    rcases Nat.lt_or_ge (j + 1) q with hq1 | hq1
    · rw [hne q (by omega) (by omega)]
      exact h3 p q hp (by omega) hq1 hq
    · have : q = j + 1 := by omega
      subst this
      rw [hnj1]
      exact h1 p j hp hpj (by omega)

/-- The end of an insertion: once the left neighbour is not greater the range is sorted. -/
theorem insert_done (key : α → Int) (data : List α) (a i j : Nat)
    (h1 : SortedOn key a (j + 1) data) (h2 : SortedOn key (j + 1) (i + 1) data)
    (h3 : ∀ p q, a ≤ p → p < j + 1 → j + 1 < q → q ≤ i → keyAt key data p ≤ keyAt key data q)
    (hnl : ¬ keyAt key data (j + 1) < keyAt key data j) : SortedOn key a (i + 1) data := by
  intro p q hp hpq hq
  rcases Nat.lt_or_ge q (j + 1) with hq1 | hq1
  · exact h1 p q hp hpq hq1
  · rcases Nat.lt_or_ge p (j + 1) with hp1 | hp1
    · rcases Nat.lt_or_ge (j + 1) q with hq2 | hq2
      · exact h3 p q hp hp1 hq2 (by omega)
      · have hqj : q = j + 1 := by omega
        subst hqj
        rcases Nat.lt_or_ge p j with hp2 | hp2
        · exact le_trans (h1 p j hp hp2 (by omega)) (not_lt.1 hnl)
        · have hpj : p = j := by omega
          subst hpj
          exact not_lt.1 hnl
    · exact h2 p q hp1 hpq hq

theorem swp_cons_succ (x : α) (l : List α) (i j : Nat) :
    swp (x :: l) (i + 1) (j + 1) = x :: swp l i j := by
  simp only [swp, List.getElem?_cons_succ]
  split <;> simp_all

theorem filter_swp_adjacent (p : α → Bool) (l : List α) (j : Nat) (hj : j + 1 < l.length)
    (h : ∀ x y, l[j]? = some x → l[j + 1]? = some y → ¬ (p x = true ∧ p y = true)) :
    (swp l (j + 1) j).filter p = l.filter p := by
  induction l generalizing j with
  | nil => simp at hj
  | cons x l ih =>
    cases j with
    | zero =>
      cases l with
      | nil => simp at hj
      | cons y l =>
        have := h x y (by simp) (by simp)
        simp only [swp, List.getElem?_cons_succ, List.getElem?_cons_zero, List.set_cons_succ,
          List.set_cons_zero, List.filter_cons]
        cases hx : p x <;> cases hy : p y <;> simp_all
    | succ j =>
      rw [swp_cons_succ, List.filter_cons, List.filter_cons, ih j (by simpa using hj)]
      intro x' y' h1 h2
      exact h x' y' (by simpa using h1) (by simpa using h2)

/-- Exchanging two neighbours of different keys keeps the order of the elements of each
key. -/
theorem filter_key_swp_adjacent (key : α → Int) (l : List α) (j : Nat) (hj : j + 1 < l.length)
    (h : keyAt key l (j + 1) ≠ keyAt key l j) (t : Int) :
    (swp l (j + 1) j).filter (fun x => decide (key x = t)) =
      l.filter (fun x => decide (key x = t)) := by
  apply filter_swp_adjacent _ l j hj
  intro x y hx hy hxy
  apply h
  simp only [keyAt, hx, hy]
  simp only [decide_eq_true_eq] at hxy
  rw [hxy.1, hxy.2]

variable (cmp : α → α → Int) (key : α → Int) (hk : ∀ x y, cmp x y < 0 ↔ key x < key y)
include hk

theorem insertionInner_spec (a i : Nat) :
    ∀ (j : Nat) (data : List α), a ≤ j → j ≤ i → i < data.length →
      SortedOn key a j data → SortedOn key j (i + 1) data →
      (∀ p q, a ≤ p → p < j → j < q → q ≤ i → keyAt key data p ≤ keyAt key data q) →
      ∃ out, insertionInner cmp a j data = some out ∧ Shuffle a (i + 1) data out ∧
        SortedOn key a (i + 1) out ∧
        ∀ t : Int, out.filter (fun x => decide (key x = t)) =
          data.filter (fun x => decide (key x = t)) := by
  intro j
  induction j with
  | zero =>
    intro data ha _ _ _ h2 _
    have : a = 0 := by omega
    subst this
    exact ⟨data, rfl, Shuffle.refl _, h2, fun _ => rfl⟩
  | succ j ih =>
    intro data ha hji hi h1 h2 h3
    simp only [insertionInner]
    split_ifs with haj
    · rw [lessAt_eq cmp key hk data (j + 1) j (by omega) (by omega)]
      by_cases hlt : keyAt key data (j + 1) < keyAt key data j
      · simp only [hlt, decide_True]
        rw [swapAt_eq data (j + 1) j (by omega) (by omega)]
        simp only
        obtain ⟨hs1, hs2, hs3⟩ := insert_step key data a i j hji hi h1 h2 h3 (by omega) hlt
        have hlen : i < (swp data (j + 1) j).length := by rw [swp_length]; exact hi
        obtain ⟨out, ho, hsh, hso, hf⟩ := ih (swp data (j + 1) j) (by omega) (by omega) hlen
          hs1 hs2 hs3
        refine ⟨out, ho, ?_, hso, ?_⟩
        · exact Shuffle.step data out (j + 1) j (by omega) (by omega) (by omega) (by omega)
            (by omega) (by omega) hsh
        · intro t
          rw [hf t, filter_key_swp_adjacent key data j (by omega) (by omega) t]
      · simp only [hlt, decide_False]
        exact ⟨data, rfl, Shuffle.refl _, insert_done key data a i j h1 h2 h3 hlt, fun _ => rfl⟩
    · have : a = j + 1 := by omega
      subst this
      exact ⟨data, rfl, Shuffle.refl _, h2, fun _ => rfl⟩

theorem insertionOuter_spec (a : Nat) :
    ∀ (n i : Nat) (data : List α), a < i → i + n ≤ data.length → SortedOn key a i data →
      ∃ out, insertionOuter cmp a n i data = some out ∧ Shuffle a (i + n) data out ∧
        SortedOn key a (i + n) out ∧
        ∀ t : Int, out.filter (fun x => decide (key x = t)) =
          data.filter (fun x => decide (key x = t)) := by
  intro n
  induction n with
  | zero =>
    intro i data _ _ hs
    exact ⟨data, rfl, Shuffle.refl _, hs, fun _ => rfl⟩
  | succ n ih =>
    intro i data hai hlen hs
    obtain ⟨out1, ho1, hsh1, hso1, hf1⟩ := insertionInner_spec cmp key hk a i i data (by omega)
      (le_refl _) (by omega) hs (by intro p q _ _ _; omega) (by intro p q _ _ _ _; omega)
    obtain ⟨out, ho, hsh, hso, hf⟩ := ih (i + 1) out1 (by omega)
      (by rw [hsh1.length_eq]; omega) hso1
    refine ⟨out, ?_, ?_, ?_, ?_⟩
    · simp only [insertionOuter, ho1, ho]
    · have h1 : Shuffle a (i + (n + 1)) data out1 := hsh1.mono (le_refl _) (by omega)
      have h2 : Shuffle a (i + (n + 1)) out1 out := hsh.mono (le_refl _) (by omega)
      exact h1.trans h2
    · have : i + (n + 1) = i + 1 + n := by omega
      rw [this]; exact hso
    · intro t; rw [hf t, hf1 t]

/-- The function `insertionSortCmpFunc` returns, shuffles and sorts the range, and keeps the elements
of each key in their order. -/
theorem insertionSortCmpFunc_spec (data : List α) (a b : Nat) (hb : b ≤ data.length) :
    ∃ out, insertionSortCmpFunc cmp data a b = some out ∧ Shuffle a b data out ∧
      SortedOn key a b out ∧
      ∀ t : Int, out.filter (fun x => decide (key x = t)) =
        data.filter (fun x => decide (key x = t)) := by
  rcases Nat.lt_or_ge (a + 1) b with h | h
  · obtain ⟨out, ho, hsh, hso, hf⟩ := insertionOuter_spec cmp key hk a (b - (a + 1)) (a + 1) data
      (by omega) (by omega) (by intro p q _ _ _; omega)
    have e : a + 1 + (b - (a + 1)) = b := by omega
    rw [e] at hsh hso
    exact ⟨out, ho, hsh, hso, hf⟩
  · have e : b - (a + 1) = 0 := by omega
    refine ⟨data, by simp only [insertionSortCmpFunc, e, insertionOuter], Shuffle.refl _, ?_,
      fun _ => rfl⟩
    intro p q _ _ _; omega

end InsertionSort

/-! ## Reversal, pattern breaking and the choice of the pivot -/

section PivotAndPatterns

variable {α : Type}

theorem lessAt_some (cmp : α → α → Int) (data : List α) (i j : Nat)
    (hi : i < data.length) (hj : j < data.length) :
    ∃ r, lessAt cmp data i j = some r := by
  simp [lessAt, List.getElem?_eq_getElem hi, List.getElem?_eq_getElem hj]

theorem reverseLoop_spec (a b : Nat) :
    ∀ (fuel i j : Nat) (data : List α), a ≤ i → j < b → j < data.length → j - i < fuel →
      ∃ out, reverseLoop fuel i j data = some out ∧ Shuffle a b data out := by
  intro fuel
  induction fuel with
  | zero => intro i j data _ _ _ h; omega
  | succ fuel ih =>
    intro i j data hi hj hlen hf
    simp only [reverseLoop]
    split_ifs with hij
    · rw [swapAt_eq data i j (by omega) hlen]
      simp only
      obtain ⟨out, ho, hsh⟩ := ih (i + 1) (j - 1) (swp data i j) (by omega) (by omega)
        (by rw [swp_length]; omega) (by omega)
      exact ⟨out, ho, Shuffle.step data out i j hi (by omega) (by omega) hj (by omega) hlen hsh⟩
    · exact ⟨data, rfl, Shuffle.refl _⟩

/-- The function `reverseRangeCmpFunc` returns and shuffles the range. -/
theorem reverseRangeCmpFunc_spec (data : List α) (a b : Nat) (hab : a ≤ b)
    (hb : b ≤ data.length) :
    ∃ out, reverseRangeCmpFunc data a b = some out ∧ Shuffle a b data out := by
  rcases Nat.eq_zero_or_pos b with h0 | h0
  · subst h0
    have : a = 0 := by omega
    subst this
    exact ⟨data, by simp [reverseRangeCmpFunc, reverseLoop], Shuffle.refl _⟩
  · exact reverseLoop_spec a b (b - a + 1) a (b - 1) data (le_refl _) (by omega) (by omega)
      (by omega)

theorem nextPowerOfTwo_le (length : Nat) (h : 0 < length) : nextPowerOfTwo length ≤ 2 * length := by
  have h1 : 2 ^ Nat.log2 length ≤ length := Nat.log2_self_le (by omega)
  have h2 : nextPowerOfTwo length ≤ 2 ^ bitsLen length := Nat.mod_le _ _
  have h3 : bitsLen length = Nat.log2 length + 1 := by
    simp only [bitsLen]
    rw [if_neg (by omega)]
  rw [h3, pow_succ] at h2
  omega

/-- The index drawn by `breakPatternsCmpFunc` is below the length, for every state of
the generator. -/
theorem breakPatterns_other_lt (length random : Nat) (h : 0 < length) :
    (if length ≤ random &&& (nextPowerOfTwo length - 1)
      then (random &&& (nextPowerOfTwo length - 1)) - length
      else random &&& (nextPowerOfTwo length - 1)) < length := by
  have h1 := nextPowerOfTwo_le length h
  have h2 : random &&& (nextPowerOfTwo length - 1) ≤ nextPowerOfTwo length - 1 := Nat.and_le_right
  split_ifs <;> omega

theorem breakPatternsLoop_spec (a b length modulus idx : Nat) (hm : modulus = nextPowerOfTwo length)
    (hl : 0 < length) (hlen : a + length = b) (hidx1 : a + 1 ≤ idx) (hidx2 : idx + 1 < b) :
    ∀ (n i random : Nat) (data : List α), i + n ≤ 3 → b ≤ data.length →
      ∃ out, breakPatternsLoop a length modulus idx n i random data = some out ∧
        Shuffle a b data out := by
  intro n
  induction n with
  | zero => intro i random data _ _; exact ⟨data, rfl, Shuffle.refl _⟩
  | succ n ih =>
    intro i random data hin hb
    simp only [breakPatternsLoop]
    have hlt := breakPatterns_other_lt length (xorshiftNext random) hl
    rw [← hm] at hlt
    rw [swapAt_eq data _ _ (by omega) (by omega)]
    simp only
    obtain ⟨out, ho, hsh⟩ := ih (i + 1) (xorshiftNext random) (swp data (idx - 1 + i)
      (a + if length ≤ xorshiftNext random &&& (modulus - 1)
        then (xorshiftNext random &&& (modulus - 1)) - length
        else xorshiftNext random &&& (modulus - 1))) (by omega) (by rw [swp_length]; exact hb)
    exact ⟨out, ho, Shuffle.step data out _ _ (by omega) (by omega) (by omega) (by omega)
      (by omega) (by omega) hsh⟩

/-- The function `breakPatternsCmpFunc` returns and shuffles the range. -/
theorem breakPatternsCmpFunc_spec (data : List α) (a b : Nat) (hab : a ≤ b)
    (hb : b ≤ data.length) :
    ∃ out, breakPatternsCmpFunc data a b = some out ∧ Shuffle a b data out := by
  simp only [breakPatternsCmpFunc]
  split_ifs with h8
  · exact breakPatternsLoop_spec a b (b - a) _ _ rfl (by omega) (by omega) (by omega) (by omega)
      3 0 _ data (by omega) hb
  · exact ⟨data, rfl, Shuffle.refl _⟩

theorem order2CmpFunc_spec (cmp : α → α → Int) (data : List α) (a b swaps : Nat)
    (ha : a < data.length) (hb : b < data.length) :
    ∃ x y s, order2CmpFunc cmp data a b swaps = some (x, y, s) ∧
      ((x = a ∧ y = b) ∨ (x = b ∧ y = a)) := by
  obtain ⟨r, hr⟩ := lessAt_some cmp data b a hb ha
  cases r
  · exact ⟨a, b, swaps, by simp [order2CmpFunc, hr], Or.inl ⟨rfl, rfl⟩⟩
  · exact ⟨b, a, swaps + 1, by simp [order2CmpFunc, hr], Or.inr ⟨rfl, rfl⟩⟩

theorem medianCmpFunc_spec (cmp : α → α → Int) (data : List α) (a b c swaps : Nat)
    (ha : a < data.length) (hb : b < data.length) (hc : c < data.length) :
    ∃ m s, medianCmpFunc cmp data a b c swaps = some (m, s) ∧ (m = a ∨ m = b ∨ m = c) := by
  obtain ⟨a1, b1, s1, h1, e1⟩ := order2CmpFunc_spec cmp data a b swaps ha hb
  obtain ⟨b2, c2, s2, h2, e2⟩ := order2CmpFunc_spec cmp data b1 c s1 (by omega) hc
  obtain ⟨a3, b3, s3, h3, e3⟩ := order2CmpFunc_spec cmp data a1 b2 s2 (by omega) (by omega)
  refine ⟨b3, s3, by simp [medianCmpFunc, h1, h2, h3], ?_⟩
  omega

/-- The function `choosePivotCmpFunc` returns an index of the range. -/
theorem choosePivotCmpFunc_spec (cmp : α → α → Int) (data : List α) (a b : Nat)
    (hab : a + 8 ≤ b) (hb : b ≤ data.length) :
    ∃ pivot hint, choosePivotCmpFunc cmp data a b = some (pivot, hint) ∧ a ≤ pivot ∧ pivot < b := by
  have h8 : 8 ≤ b - a := by omega
  have hq1 : 2 ≤ (b - a) / 4 := by omega
  have hq2 : a + (b - a) / 4 * 4 ≤ b := by omega
  have hq3 : 50 ≤ b - a → 12 ≤ (b - a) / 4 := by omega
  simp only [choosePivotCmpFunc, h8, if_true, medianAdjacentCmpFunc]
  generalize (b - a) / 4 = q at hq1 hq2 hq3 ⊢
  by_cases h50 : 50 ≤ b - a
  · have hq4 := hq3 h50
    obtain ⟨i1, s1, h1, e1⟩ := medianCmpFunc_spec cmp data (a + q * 1 - 1)
      (a + q * 1) (a + q * 1 + 1) 0 (by omega) (by omega) (by omega)
    obtain ⟨j1, s2, h2, e2⟩ := medianCmpFunc_spec cmp data (a + q * 2 - 1)
      (a + q * 2) (a + q * 2 + 1) s1 (by omega) (by omega) (by omega)
    obtain ⟨k1, s3, h3, e3⟩ := medianCmpFunc_spec cmp data (a + q * 3 - 1)
      (a + q * 3) (a + q * 3 + 1) s2 (by omega) (by omega) (by omega)
    have hi1 : a ≤ i1 ∧ i1 < b := by omega
    have hj1 : a ≤ j1 ∧ j1 < b := by omega
    have hk1 : a ≤ k1 ∧ k1 < b := by omega
    clear e1 e2 e3
    obtain ⟨m, s4, h4, e4⟩ := medianCmpFunc_spec cmp data i1 j1 k1 s3 (by omega) (by omega)
      (by omega)
    have hm : a ≤ m ∧ m < b := by omega
    simp only [h50, if_true, h1, h2, h3, h4]
    split_ifs
    · exact ⟨m, _, rfl, hm.1, hm.2⟩
    · exact ⟨m, _, rfl, hm.1, hm.2⟩
    · exact ⟨m, _, rfl, hm.1, hm.2⟩
  · obtain ⟨m, s, h, e⟩ := medianCmpFunc_spec cmp data (a + q * 1)
      (a + q * 2) (a + q * 3) 0 (by omega) (by omega) (by omega)
    have hm : a ≤ m ∧ m < b := by omega
    simp only [h50, if_false, h]
    split_ifs
    · exact ⟨m, _, rfl, hm.1, hm.2⟩
    · exact ⟨m, _, rfl, hm.1, hm.2⟩
    · exact ⟨m, _, rfl, hm.1, hm.2⟩

end PivotAndPatterns

/-! ## The two partitions -/

section Partition

variable {α : Type}

/-- The exchange in the main loop of a partition extends the left and the right region
by one element each. -/
theorem swap_regions (key : α → Int) (data : List α) (L R : Int → Prop) (a i j i1 j1 b : Nat)
    (hai : a < i) (hi1 : i ≤ i1) (hij : i1 < j1) (hj1 : j1 ≤ j) (hjb : j < b)
    (hb : b ≤ data.length)
    (hlo : ∀ k, a < k → k < i → L (keyAt key data k))
    (hlo1 : ∀ k, i ≤ k → k < i1 → L (keyAt key data k))
    (hhi : ∀ k, j < k → k < b → R (keyAt key data k))
    (hhi1 : ∀ k, j1 < k → k ≤ j → R (keyAt key data k))
    (hL : L (keyAt key data j1)) (hR : R (keyAt key data i1)) :
    keyAt key (swp data i1 j1) a = keyAt key data a ∧
    (∀ k, a < k → k < i1 + 1 → L (keyAt key (swp data i1 j1) k)) ∧
    (∀ k, j1 - 1 < k → k < b → R (keyAt key (swp data i1 j1) k)) := by
  have h1 : i1 < data.length := by omega
  have h2 : j1 < data.length := by omega
  refine ⟨keyAt_swp_ne key data i1 j1 a h1 h2 (by omega) (by omega), ?_, ?_⟩
  · intro k hk1 hk2
    rcases Nat.lt_or_ge k i1 with h | h
    · rw [keyAt_swp_ne key data i1 j1 k h1 h2 (by omega) (by omega)]
      rcases Nat.lt_or_ge k i with h' | h'
      · exact hlo k hk1 h'
      · exact hlo1 k h' h
    · have : k = i1 := by omega
      subst this
      rw [keyAt_swp_snd key data k j1 h1 h2]
      exact hL
  · intro k hk1 hk2
    rcases Nat.lt_or_ge j1 k with h | h
    · rw [keyAt_swp_ne key data i1 j1 k h1 h2 (by omega) (by omega)]
      rcases Nat.lt_or_ge j k with h' | h'
      · exact hhi k h' hk2
      · exact hhi1 k h h'
    · have : k = j1 := by omega
      subst this
      rw [keyAt_swp_fst key data i1 k h1 h2]
      exact hR

/-- The last exchange of `partitionCmpFunc` puts the pivot between the two regions. -/
theorem swap_pivot_back (key : α → Int) (data : List α) (L R : Int → Prop) (a j2 b : Nat)
    (h1 : a ≤ j2) (h2 : j2 < b) (hb : b ≤ data.length)
    (h3 : ∀ k, a < k → k ≤ j2 → L (keyAt key data k))
    (h4 : ∀ k, j2 < k → k < b → R (keyAt key data k)) :
    keyAt key (swp data j2 a) j2 = keyAt key data a ∧
    (∀ k, a ≤ k → k < j2 → L (keyAt key (swp data j2 a) k)) ∧
    (∀ k, j2 < k → k < b → R (keyAt key (swp data j2 a) k)) := by
  have hj : j2 < data.length := by omega
  have ha : a < data.length := by omega
  refine ⟨keyAt_swp_snd key data j2 a hj ha, ?_, ?_⟩
  · intro k hk1 hk2
    rcases Nat.lt_or_ge a k with h | h
    · rw [keyAt_swp_ne key data j2 a k hj ha (by omega) (by omega)]
      exact h3 k h (by omega)
    · have : k = a := by omega
      subst this
      rw [keyAt_swp_fst key data j2 k hj ha]
      exact h3 j2 (by omega) (le_refl _)
  · intro k hk1 hk2
    rw [keyAt_swp_ne key data j2 a k hj ha (by omega) (by omega)]
    exact h4 k hk1 hk2

variable (cmp : α → α → Int) (key : α → Int) (hk : ∀ x y, cmp x y < 0 ↔ key x < key y)
include hk

theorem scanLess_spec (data : List α) (a j : Nat) (ha : a < data.length) (hj : j < data.length) :
    ∀ (fuel i : Nat), i ≤ j + 1 → j + 1 - i < fuel →
      ∃ i1, scanLess cmp data a j fuel i = some i1 ∧ i ≤ i1 ∧ i1 ≤ j + 1 ∧
        (∀ k, i ≤ k → k < i1 → keyAt key data k < keyAt key data a) ∧
        (i1 ≤ j → ¬ keyAt key data i1 < keyAt key data a) := by
  intro fuel
  induction fuel with
  | zero => intro i _ h; omega
  | succ fuel ih =>
    intro i hi hf
    simp only [scanLess]
    split_ifs with hij
    · rw [lessAt_eq cmp key hk data i a (by omega) ha]
      by_cases hlt : keyAt key data i < keyAt key data a
      · simp only [hlt, decide_True]
        obtain ⟨i1, h1, h2, h3, h4, h5⟩ := ih (i + 1) (by omega) (by omega)
        refine ⟨i1, h1, by omega, h3, ?_, h5⟩
        intro k hk1 hk2
        rcases Nat.lt_or_ge i k with h | h
        · exact h4 k (by omega) hk2
        · have : k = i := by omega
          subst this; exact hlt
      · simp only [hlt, decide_False]
        exact ⟨i, rfl, le_refl _, by omega, fun k _ _ => by omega, fun _ => hlt⟩
    · exact ⟨i, rfl, le_refl _, by omega, fun k _ _ => by omega, fun h => by omega⟩

theorem scanNotLess_spec (data : List α) (a i : Nat) (ha : a < data.length) (hi : 1 ≤ i) :
    ∀ (fuel j : Nat), j < data.length → i ≤ j + 1 → j + 1 - i < fuel →
      ∃ j1, scanNotLess cmp data a i fuel j = some j1 ∧ j1 ≤ j ∧ i ≤ j1 + 1 ∧
        (∀ k, j1 < k → k ≤ j → ¬ keyAt key data k < keyAt key data a) ∧
        (i ≤ j1 → keyAt key data j1 < keyAt key data a) := by
  intro fuel
  induction fuel with
  | zero => intro j _ _ h; omega
  | succ fuel ih =>
    intro j hj hij hf
    simp only [scanNotLess]
    split_ifs with hle
    · rw [lessAt_eq cmp key hk data j a hj ha]
      by_cases hlt : keyAt key data j < keyAt key data a
      · simp only [hlt, decide_True]
        exact ⟨j, rfl, le_refl _, by omega, fun k _ _ => by omega, fun _ => hlt⟩
      · simp only [hlt, decide_False]
        obtain ⟨j1, h1, h2, h3, h4, h5⟩ := ih (j - 1) (by omega) (by omega) (by omega)
        refine ⟨j1, h1, by omega, h3, ?_, h5⟩
        intro k hk1 hk2
        rcases Nat.lt_or_ge k j with h | h
        · exact h4 k hk1 (by omega)
        · have : k = j := by omega
          subst this; exact hlt
    · exact ⟨j, rfl, le_refl _, by omega, fun k _ _ => by omega, fun h => by omega⟩

theorem partitionLoop_spec (a b : Nat) :
    ∀ (fuel i j : Nat) (data : List α), a < i → i ≤ j + 1 → j < b → b ≤ data.length →
      j + 1 - i < fuel →
      (∀ k, a < k → k < i → keyAt key data k < keyAt key data a) →
      (∀ k, j < k → k < b → ¬ keyAt key data k < keyAt key data a) →
      ∃ j2 out, partitionLoop cmp a fuel i j data = some (j2, out) ∧
        Shuffle (a + 1) b data out ∧ a ≤ j2 ∧ j2 < b ∧
        (∀ k, a < k → k ≤ j2 → keyAt key out k < keyAt key out a) ∧
        (∀ k, j2 < k → k < b → ¬ keyAt key out k < keyAt key out a) := by
  intro fuel
  induction fuel with
  | zero => intro i j data _ _ _ _ h; omega
  | succ fuel ih =>
    intro i j data hai hij hjb hb hf hlo hhi
    obtain ⟨i1, e1, hi1, hi2, hi3, hi4⟩ := scanLess_spec cmp key hk data a j (by omega) (by omega)
      (j + 2 - i) i hij (by omega)
    obtain ⟨j1, e2, hj1, hj2, hj3, hj4⟩ := scanNotLess_spec cmp key hk data a i1 (by omega)
      (by omega) (j + 2 - i1) j (by omega) hi2 (by omega)
    simp only [partitionLoop, e1, e2]
    split_ifs with hlt
    · refine ⟨j1, data, rfl, Shuffle.refl _, by omega, by omega, ?_, ?_⟩
      · intro k hk1 hk2
        rcases Nat.lt_or_ge k i with h | h
        · exact hlo k hk1 h
        · exact hi3 k h (by omega)
      · intro k hk1 hk2
        rcases Nat.lt_or_ge j k with h | h
        · exact hhi k h hk2
        · exact hj3 k hk1 h
    · have hne : i1 ≠ j1 := by
        intro e
        subst e
        exact hi4 (by omega) (hj4 (le_refl _))
      rw [swapAt_eq data i1 j1 (by omega) (by omega)]
      simp only
      obtain ⟨ea, hL', hR'⟩ := swap_regions key data (fun v => v < keyAt key data a)
        (fun v => ¬ v < keyAt key data a) a i j i1 j1 b hai hi1 (by omega) hj1 hjb hb hlo hi3
        hhi hj3 (hj4 (by omega)) (hi4 (by omega))
      rw [← ea] at hL' hR'
      have hlen' : b ≤ (swp data i1 j1).length := by rw [swp_length]; exact hb
      obtain ⟨j2, out, e3, hsh, h1, h2, h3, h4⟩ := ih (i1 + 1) (j1 - 1) (swp data i1 j1)
        (by omega) (by omega) (by omega) hlen' (by omega) hL' hR'
      exact ⟨j2, out, e3, Shuffle.step data out i1 j1 (by omega) (by omega) (by omega) (by omega)
        (by omega) (by omega) hsh, h1, h2, h3, h4⟩

/-- The function `partitionCmpFunc` returns a shuffle of the range in which the keys before `mid` are
smaller than the key at `mid` and the keys after it are not. -/
theorem partitionCmpFunc_spec (data : List α) (a b pivot : Nat) (hap : a ≤ pivot)
    (hpb : pivot < b) (hb : b ≤ data.length) :
    ∃ out mid flag, partitionCmpFunc cmp data a b pivot = some (out, mid, flag) ∧
      Shuffle a b data out ∧ a ≤ mid ∧ mid < b ∧
      (∀ k, a ≤ k → k < mid → keyAt key out k < keyAt key out mid) ∧
      (∀ k, mid < k → k < b → keyAt key out mid ≤ keyAt key out k) := by
  have hs1 : Shuffle a b data (swp data a pivot) :=
    Shuffle.swap data a pivot (le_refl _) (by omega) hap hpb (by omega) (by omega)
  have hl1 : (swp data a pivot).length = data.length := swp_length _ _ _
  obtain ⟨i1, e1, hi1, hi2, hi3, hi4⟩ := scanLess_spec cmp key hk (swp data a pivot) a (b - 1)
    (by omega) (by omega) (b - 1 + 2 - (a + 1)) (a + 1) (by omega) (by omega)
  obtain ⟨j1, e2, hj1, hj2, hj3, hj4⟩ := scanNotLess_spec cmp key hk (swp data a pivot) a i1
    (by omega) (by omega) (b - 1 + 2 - i1) (b - 1) (by omega) hi2 (by omega)
  simp only [partitionCmpFunc, swapAt_eq data a pivot (by omega) (by omega), e1, e2]
  split_ifs with hlt
  · rw [swapAt_eq _ j1 a (by omega) (by omega)]
    obtain ⟨em, hL, hR⟩ := swap_pivot_back key (swp data a pivot)
      (fun v => v < keyAt key (swp data a pivot) a)
      (fun v => ¬ v < keyAt key (swp data a pivot) a) a j1 b (by omega) (by omega) (by omega)
      (fun k hk1 hk2 => hi3 k (by omega) (by omega))
      (fun k hk1 hk2 => hj3 k hk1 (by omega))
    refine ⟨_, j1, true, rfl, ?_, by omega, by omega, ?_, ?_⟩
    · exact hs1.trans (Shuffle.swap _ j1 a (by omega) (by omega) (le_refl _) (by omega)
        (by omega) (by omega))
    · intro k hk1 hk2
      rw [em]
      exact hL k hk1 hk2
    · intro k hk1 hk2
      rw [em]
      exact not_lt.1 (hR k hk1 hk2)
  · have hne : i1 ≠ j1 := by
      intro e
      subst e
      exact hi4 (by omega) (hj4 (le_refl _))
    rw [swapAt_eq _ i1 j1 (by omega) (by omega)]
    simp only
    obtain ⟨ea, hL', hR'⟩ := swap_regions key (swp data a pivot)
      (fun v => v < keyAt key (swp data a pivot) a)
      (fun v => ¬ v < keyAt key (swp data a pivot) a) a (a + 1) (b - 1) i1 j1 b (by omega) hi1
      (by omega) hj1 (by omega) (by omega) (fun k hk1 hk2 => by omega) hi3
      (fun k hk1 hk2 => by omega) hj3 (hj4 (by omega)) (hi4 (by omega))
    rw [← ea] at hL' hR'
    have hlen' : b ≤ (swp (swp data a pivot) i1 j1).length := by rw [swp_length]; omega
    obtain ⟨j2, out, e3, hsh, h1, h2, h3, h4⟩ := partitionLoop_spec cmp key hk a b (b - a + 1)
      (i1 + 1) (j1 - 1) (swp (swp data a pivot) i1 j1)
      (by omega) (by omega) (by omega) hlen' (by omega) hL' hR'
    simp only [e3]
    have hlo : out.length = data.length := by rw [hsh.length_eq, swp_length, swp_length]
    rw [swapAt_eq out j2 a (by omega) (by omega)]
    obtain ⟨em, hL2, hR2⟩ := swap_pivot_back key out (fun v => v < keyAt key out a)
      (fun v => ¬ v < keyAt key out a) a j2 b h1 h2 (by omega) h3 h4
    refine ⟨_, j2, false, rfl, ?_, h1, h2, ?_, ?_⟩
    · refine hs1.trans (Shuffle.trans ?_ (Shuffle.trans (hsh.mono (by omega) (le_refl _)) ?_))
      · exact Shuffle.swap _ i1 j1 (by omega) (by omega) (by omega) (by omega) (by omega)
          (by omega)
      · exact Shuffle.swap _ j2 a (by omega) (by omega) (le_refl _) (by omega) (by omega)
          (by omega)
    · intro k hk1 hk2
      rw [em]
      exact hL2 k hk1 hk2
    · intro k hk1 hk2
      rw [em]
      exact not_lt.1 (hR2 k hk1 hk2)

theorem scanNotGreater_spec (data : List α) (a j : Nat) (ha : a < data.length)
    (hj : j < data.length) :
    ∀ (fuel i : Nat), i ≤ j + 1 → j + 1 - i < fuel →
      ∃ i1, scanNotGreater cmp data a j fuel i = some i1 ∧ i ≤ i1 ∧ i1 ≤ j + 1 ∧
        (∀ k, i ≤ k → k < i1 → ¬ keyAt key data a < keyAt key data k) ∧
        (i1 ≤ j → keyAt key data a < keyAt key data i1) := by
  intro fuel
  induction fuel with
  | zero => intro i _ h; omega
  | succ fuel ih =>
    intro i hi hf
    simp only [scanNotGreater]
    split_ifs with hij
    · rw [lessAt_eq cmp key hk data a i ha (by omega)]
      by_cases hlt : keyAt key data a < keyAt key data i
      · simp only [hlt, decide_True]
        exact ⟨i, rfl, le_refl _, by omega, fun k _ _ => by omega, fun _ => hlt⟩
      · simp only [hlt, decide_False]
        obtain ⟨i1, h1, h2, h3, h4, h5⟩ := ih (i + 1) (by omega) (by omega)
        refine ⟨i1, h1, by omega, h3, ?_, h5⟩
        intro k hk1 hk2
        rcases Nat.lt_or_ge i k with h | h
        · exact h4 k (by omega) hk2
        · have : k = i := by omega
          subst this; exact hlt
    · exact ⟨i, rfl, le_refl _, by omega, fun k _ _ => by omega, fun h => by omega⟩

theorem scanGreater_spec (data : List α) (a i : Nat) (ha : a < data.length) (hi : 1 ≤ i) :
    ∀ (fuel j : Nat), j < data.length → i ≤ j + 1 → j + 1 - i < fuel →
      ∃ j1, scanGreater cmp data a i fuel j = some j1 ∧ j1 ≤ j ∧ i ≤ j1 + 1 ∧
        (∀ k, j1 < k → k ≤ j → keyAt key data a < keyAt key data k) ∧
        (i ≤ j1 → ¬ keyAt key data a < keyAt key data j1) := by
  intro fuel
  induction fuel with
  | zero => intro j _ _ h; omega
  | succ fuel ih =>
    intro j hj hij hf
    simp only [scanGreater]
    split_ifs with hle
    · rw [lessAt_eq cmp key hk data a j ha hj]
      by_cases hlt : keyAt key data a < keyAt key data j
      · simp only [hlt, decide_True]
        obtain ⟨j1, h1, h2, h3, h4, h5⟩ := ih (j - 1) (by omega) (by omega) (by omega)
        refine ⟨j1, h1, by omega, h3, ?_, h5⟩
        intro k hk1 hk2
        rcases Nat.lt_or_ge k j with h | h
        · exact h4 k hk1 (by omega)
        · have : k = j := by omega
          subst this; exact hlt
      · simp only [hlt, decide_False]
        exact ⟨j, rfl, le_refl _, by omega, fun k _ _ => by omega, fun _ => hlt⟩
    · exact ⟨j, rfl, le_refl _, by omega, fun k _ _ => by omega, fun h => by omega⟩

theorem partitionEqualLoop_spec (a b : Nat) :
    ∀ (fuel i j : Nat) (data : List α), a < i → i ≤ j + 1 → j < b → b ≤ data.length →
      j + 1 - i < fuel →
      (∀ k, a < k → k < i → ¬ keyAt key data a < keyAt key data k) →
      (∀ k, j < k → k < b → keyAt key data a < keyAt key data k) →
      ∃ i2 out, partitionEqualLoop cmp a fuel i j data = some (i2, out) ∧
        Shuffle (a + 1) b data out ∧ a < i2 ∧ i2 ≤ b ∧
        (∀ k, a < k → k < i2 → ¬ keyAt key out a < keyAt key out k) ∧
        (∀ k, i2 ≤ k → k < b → keyAt key out a < keyAt key out k) := by
  intro fuel
  induction fuel with
  | zero => intro i j data _ _ _ _ h; omega
  | succ fuel ih =>
    intro i j data hai hij hjb hb hf hlo hhi
    obtain ⟨i1, e1, hi1, hi2, hi3, hi4⟩ := scanNotGreater_spec cmp key hk data a j (by omega)
      (by omega) (j + 2 - i) i hij (by omega)
    obtain ⟨j1, e2, hj1, hj2, hj3, hj4⟩ := scanGreater_spec cmp key hk data a i1 (by omega)
      (by omega) (j + 2 - i1) j (by omega) hi2 (by omega)
    simp only [partitionEqualLoop, e1, e2]
    split_ifs with hlt
    · refine ⟨i1, data, rfl, Shuffle.refl _, by omega, by omega, ?_, ?_⟩
      · intro k hk1 hk2
        rcases Nat.lt_or_ge k i with h | h
        · exact hlo k hk1 h
        · exact hi3 k h (by omega)
      · intro k hk1 hk2
        rcases Nat.lt_or_ge j k with h | h
        · exact hhi k h hk2
        · exact hj3 k (by omega) h
    · have hne : i1 ≠ j1 := by
        intro e
        subst e
        exact hj4 (le_refl _) (hi4 (by omega))
      rw [swapAt_eq data i1 j1 (by omega) (by omega)]
      simp only
      obtain ⟨ea, hL', hR'⟩ := swap_regions key data (fun v => ¬ keyAt key data a < v)
        (fun v => keyAt key data a < v) a i j i1 j1 b hai hi1 (by omega) hj1 hjb hb hlo hi3
        hhi hj3 (hj4 (by omega)) (hi4 (by omega))
      rw [← ea] at hL' hR'
      have hlen' : b ≤ (swp data i1 j1).length := by rw [swp_length]; exact hb
      obtain ⟨i2, out, e3, hsh, h1, h2, h3, h4⟩ := ih (i1 + 1) (j1 - 1) (swp data i1 j1)
        (by omega) (by omega) (by omega) hlen' (by omega) hL' hR'
      exact ⟨i2, out, e3, Shuffle.step data out i1 j1 (by omega) (by omega) (by omega) (by omega)
        (by omega) (by omega) hsh, h1, h2, h3, h4⟩

/-- The function `partitionEqualCmpFunc` returns a shuffle of the range in which the keys before
`mid` are at most the key of the pivot and the keys from `mid` on are greater. -/
theorem partitionEqualCmpFunc_spec (data : List α) (a b pivot : Nat) (hap : a ≤ pivot)
    (hpb : pivot < b) (hb : b ≤ data.length) :
    ∃ out mid, partitionEqualCmpFunc cmp data a b pivot = some (out, mid) ∧
      Shuffle a b data out ∧ a < mid ∧ mid ≤ b ∧
      (∀ k, a ≤ k → k < mid → keyAt key out k ≤ keyAt key data pivot) ∧
      (∀ k, mid ≤ k → k < b → keyAt key data pivot < keyAt key out k) := by
  have hs1 : Shuffle a b data (swp data a pivot) :=
    Shuffle.swap data a pivot (le_refl _) (by omega) hap hpb (by omega) (by omega)
  have hl1 : (swp data a pivot).length = data.length := swp_length _ _ _
  have hpa : keyAt key (swp data a pivot) a = keyAt key data pivot :=
    keyAt_swp_snd key data a pivot (by omega) (by omega)
  obtain ⟨i2, out, e, hsh, h1, h2, h3, h4⟩ := partitionEqualLoop_spec cmp key hk a b
    (b - a + 1) (a + 1) (b - 1) (swp data a pivot) (by omega) (by omega) (by omega)
    (by omega) (by omega) (fun k _ _ => by omega) (fun k _ _ => by omega)
  have hoa : keyAt key out a = keyAt key (swp data a pivot) a :=
    hsh.keyAt_outside key a (by omega)
  simp only [partitionEqualCmpFunc, swapAt_eq data a pivot (by omega) (by omega), e]
  refine ⟨out, i2, rfl, hs1.trans (hsh.mono (by omega) (le_refl _)), h1, h2, ?_, ?_⟩
  · intro k hk1 hk2
    rcases Nat.lt_or_ge a k with h | h
    · have := h3 k h hk2
      omega
    · have : k = a := by omega
      subst this
      omega
  · intro k hk1 hk2
    have := h4 k hk1 hk2
    omega

end Partition

/-! ## Partial insertion sort -/

section PartialInsertion

variable {α : Type}
variable (cmp : α → α → Int) (key : α → Int) (hk : ∀ x y, cmp x y < 0 ↔ key x < key y)
include hk

theorem scanOrdered_spec (data : List α) (b : Nat) (hb : b ≤ data.length) :
    ∀ (fuel i : Nat), 1 ≤ i → i ≤ b → b - i < fuel →
      ∃ i1, scanOrdered cmp data b fuel i = some i1 ∧ i ≤ i1 ∧ i1 ≤ b ∧
        (∀ k, i ≤ k → k < i1 → keyAt key data (k - 1) ≤ keyAt key data k) ∧
        (i1 < b → keyAt key data i1 < keyAt key data (i1 - 1)) := by
  intro fuel
  induction fuel with
  | zero => intro i _ _ h; omega
  | succ fuel ih =>
    intro i hi hib hf
    simp only [scanOrdered]
    split_ifs with hlt
    · rw [lessAt_eq cmp key hk data i (i - 1) (by omega) (by omega)]
      by_cases hl : keyAt key data i < keyAt key data (i - 1)
      · simp only [hl, decide_True]
        exact ⟨i, rfl, le_refl _, hib, fun k _ _ => by omega, fun _ => hl⟩
      · simp only [hl, decide_False]
        obtain ⟨i1, h1, h2, h3, h4, h5⟩ := ih (i + 1) (by omega) (by omega) (by omega)
        refine ⟨i1, h1, by omega, h3, ?_, h5⟩
        intro k hk1 hk2
        rcases Nat.lt_or_ge i k with h | h
        · exact h4 k (by omega) hk2
        · have : k = i := by omega
          subst this; omega
    · exact ⟨i, rfl, le_refl _, hib, fun k _ _ => by omega, fun h => by omega⟩

/-- The shift to the left of `partialInsertionSortCmpFunc` stays in the range, because
the element before the range is a lower bound, and sorts the prefix. -/
theorem shiftLeft_spec (a i : Nat) :
    ∀ (j : Nat) (data : List α), a ≤ j → j ≤ i → i < data.length →
      SortedOn key a j data → SortedOn key j (i + 1) data →
      (∀ p q, a ≤ p → p < j → j < q → q ≤ i → keyAt key data p ≤ keyAt key data q) →
      (0 < a → ∀ k, a ≤ k → k ≤ i → keyAt key data (a - 1) ≤ keyAt key data k) →
      ∃ out, shiftLeft cmp j data = some out ∧ Shuffle a (i + 1) data out ∧
        SortedOn key a (i + 1) out := by
  intro j
  induction j with
  | zero =>
    intro data ha _ _ _ h2 _ _
    have : a = 0 := by omega
    subst this
    exact ⟨data, rfl, Shuffle.refl _, h2⟩
  | succ j ih =>
    intro data ha hji hi h1 h2 h3 h4
    simp only [shiftLeft]
    rw [lessAt_eq cmp key hk data (j + 1) j (by omega) (by omega)]
    by_cases hlt : keyAt key data (j + 1) < keyAt key data j
    · simp only [hlt, decide_True]
      have haj : a ≤ j := by
        by_contra hc
        have e : a = j + 1 := by omega
        have := h4 (by omega) (j + 1) (by omega) (by omega)
        have e2 : a - 1 = j := by omega
        rw [e2] at this
        omega
      rw [swapAt_eq data (j + 1) j (by omega) (by omega)]
      simp only
      obtain ⟨hs1, hs2, hs3⟩ := insert_step key data a i j hji hi h1 h2 h3 haj hlt
      have hlen : i < (swp data (j + 1) j).length := by rw [swp_length]; exact hi
      have hsh0 : Shuffle a (i + 1) data (swp data (j + 1) j) :=
        Shuffle.swap data (j + 1) j (by omega) (by omega) (by omega) (by omega) (by omega)
          (by omega)
      have hs4 : 0 < a → ∀ k, a ≤ k → k ≤ i →
          keyAt key (swp data (j + 1) j) (a - 1) ≤ keyAt key (swp data (j + 1) j) k := by
        intro ha0 k hk1 hk2
        rw [hsh0.keyAt_outside key (a - 1) (by omega)]
        exact hsh0.forall_keyAt key (fun v => keyAt key data (a - 1) ≤ v)
          (fun k hk1 hk2 => h4 ha0 k hk1 (by omega)) k hk1 (by omega)
      obtain ⟨out, ho, hsh, hso⟩ := ih (swp data (j + 1) j) haj (by omega) hlen hs1 hs2 hs3 hs4
      exact ⟨out, ho, hsh0.trans hsh, hso⟩
    · simp only [hlt, decide_False]
      exact ⟨data, rfl, Shuffle.refl _, insert_done key data a i j h1 h2 h3 hlt⟩

theorem shiftRight_spec (b : Nat) :
    ∀ (n j : Nat) (data : List α), 1 ≤ j → j + n ≤ b → b ≤ data.length →
      ∃ out, shiftRight cmp n j data = some out ∧ Shuffle (j - 1) b data out := by
  intro n
  induction n with
  | zero => intro j data _ _ _; exact ⟨data, rfl, Shuffle.refl _⟩
  | succ n ih =>
    intro j data hj hjn hb
    simp only [shiftRight]
    rw [lessAt_eq cmp key hk data j (j - 1) (by omega) (by omega)]
    by_cases hlt : keyAt key data j < keyAt key data (j - 1)
    · simp only [hlt, decide_True]
      rw [swapAt_eq data j (j - 1) (by omega) (by omega)]
      simp only
      obtain ⟨out, ho, hsh⟩ := ih (j + 1) (swp data j (j - 1)) (by omega) (by omega)
        (by rw [swp_length]; exact hb)
      exact ⟨out, ho, Shuffle.step data out j (j - 1) (by omega) (by omega) (by omega) (by omega)
        (by omega) (by omega) (hsh.mono (by omega) (le_refl _))⟩
    · simp only [hlt, decide_False]
      exact ⟨data, rfl, Shuffle.refl _⟩

end PartialInsertion

section PartialInsertionLoop

variable {α : Type}
variable (cmp : α → α → Int) (key : α → Int) (hk : ∀ x y, cmp x y < 0 ↔ key x < key y)
include hk

theorem partialInsertionLoop_spec (a b : Nat) :
    ∀ (steps i : Nat) (data : List α), a < i → i ≤ b → b ≤ data.length →
      SortedOn key a i data →
      (0 < a → ∀ k, a ≤ k → k < b → keyAt key data (a - 1) ≤ keyAt key data k) →
      ∃ out flag, partialInsertionLoop cmp a b steps i data = some (out, flag) ∧
        Shuffle a b data out ∧ (flag = true → SortedOn key a b out) := by
  intro steps
  induction steps with
  | zero =>
    intro i data _ _ _ _ _
    exact ⟨data, false, rfl, Shuffle.refl _, fun h => by simp at h⟩
  | succ steps ih =>
    intro i data hai hib hb hs hsent
    obtain ⟨i1, e1, hi1, hi2, hi3, hi4⟩ := scanOrdered_spec cmp key hk data b hb (b + 1 - i) i
      (by omega) hib (by omega)
    have hsort1 : SortedOn key a i1 data := by
      apply sortedOn_of_adjacent
      intro k hk1 hk2
      rcases Nat.lt_or_ge (k + 1) i with h | h
      · exact hs k (k + 1) hk1 (by omega) h
      · have := hi3 (k + 1) h hk2
        simpa using this
    simp only [partialInsertionLoop, e1]
    by_cases hib1 : i1 = b
    · rw [if_pos hib1]
      subst hib1
      exact ⟨data, true, rfl, Shuffle.refl _, fun _ => hsort1⟩
    by_cases h50 : b - a < 50
    · rw [if_neg hib1, if_pos h50]
      exact ⟨data, false, rfl, Shuffle.refl _, fun h => by simp at h⟩
    · rw [if_neg hib1, if_neg h50]
      rw [swapAt_eq data i1 (i1 - 1) (by omega) (by omega)]
      simp only
      have hl1 : (swp data i1 (i1 - 1)).length = data.length := swp_length _ _ _
      have hsh1 : Shuffle a b data (swp data i1 (i1 - 1)) :=
        Shuffle.swap data i1 (i1 - 1) (by omega) (by omega) (by omega) (by omega) (by omega)
          (by omega)
      have hsent1 := hsh1.sentinel key hsent
      have hsort2 : SortedOn key a (i1 - 1) (swp data i1 (i1 - 1)) := by
        intro p q hp hpq hq
        rw [keyAt_swp_ne key data i1 (i1 - 1) p (by omega) (by omega) (by omega) (by omega),
          keyAt_swp_ne key data i1 (i1 - 1) q (by omega) (by omega) (by omega) (by omega)]
        exact hsort1 p q hp hpq (by omega)
      have h2 : ∃ data2, (if 2 ≤ i1 - a then shiftLeft cmp (i1 - 1) (swp data i1 (i1 - 1))
            else some (swp data i1 (i1 - 1))) = some data2 ∧
          Shuffle a i1 (swp data i1 (i1 - 1)) data2 ∧ SortedOn key a i1 data2 := by
        split_ifs with h2a
        · obtain ⟨out, ho, hsh, hso⟩ := shiftLeft_spec cmp key hk a (i1 - 1) (i1 - 1)
            (swp data i1 (i1 - 1)) (by omega) (le_refl _) (by omega) hsort2
            (by intro p q _ _ _; omega)
            (by intro p q _ _ _ _; omega)
            (fun ha0 k hk1 hk2 => hsent1 ha0 k hk1 (by omega))
          have e : i1 - 1 + 1 = i1 := by omega
          rw [e] at hsh hso
          exact ⟨out, ho, hsh, hso⟩
        · refine ⟨_, rfl, Shuffle.refl _, ?_⟩
          intro p q _ _ _; omega
      obtain ⟨data2, e2, hsh2, hso2⟩ := h2
      have hl2 : data2.length = data.length := by rw [hsh2.length_eq, hl1]
      have h3 : ∃ data3, (if 2 ≤ b - i1 then shiftRight cmp (b - (i1 + 1)) (i1 + 1) data2
            else some data2) = some data3 ∧ Shuffle i1 b data2 data3 := by
        split_ifs with h3a
        · obtain ⟨out, ho, hsh⟩ := shiftRight_spec cmp key hk b (b - (i1 + 1)) (i1 + 1) data2
            (by omega) (by omega) (by omega)
          have e : i1 + 1 - 1 = i1 := by omega
          rw [e] at hsh
          exact ⟨out, ho, hsh⟩
        · exact ⟨_, rfl, Shuffle.refl _⟩
      obtain ⟨data3, e3, hsh3⟩ := h3
      have hl3 : data3.length = data.length := by rw [hsh3.length_eq, hl2]
      have hshall : Shuffle a b data data3 :=
        hsh1.trans ((hsh2.mono (le_refl _) (by omega)).trans (hsh3.mono (by omega) (le_refl _)))
      have hso3 : SortedOn key a i1 data3 :=
        hsh3.sortedOn_outside key hso2 (Or.inl (le_refl _))
      obtain ⟨out, flag, e4, hsh4, hfl⟩ := ih i1 data3 (by omega) hi2 (by omega) hso3
        (by
          intro ha0 k hk1 hk2
          have h0 : keyAt key data3 (a - 1) = keyAt key data (a - 1) :=
            hshall.keyAt_outside key (a - 1) (by omega)
          rw [h0]
          exact hshall.forall_keyAt key (fun v => keyAt key data (a - 1) ≤ v)
            (fun k hk1 hk2 => hsent ha0 k hk1 hk2) k hk1 hk2)
      simp only [e2, e3, e4]
      exact ⟨out, flag, rfl, hshall.trans hsh4, hfl⟩

/-- The function `partialInsertionSortCmpFunc` returns a shuffle of the range, which is sorted when
the flag is `true`. -/
theorem partialInsertionSortCmpFunc_spec (data : List α) (a b : Nat) (hab : a < b)
    (hb : b ≤ data.length)
    (hsent : 0 < a → ∀ k, a ≤ k → k < b → keyAt key data (a - 1) ≤ keyAt key data k) :
    ∃ out flag, partialInsertionSortCmpFunc cmp data a b = some (out, flag) ∧
      Shuffle a b data out ∧ (flag = true → SortedOn key a b out) :=
  partialInsertionLoop_spec cmp key hk a b 5 (a + 1) data (by omega) (by omega) hb
    (by intro p q _ _ _; omega) hsent

end PartialInsertionLoop

/-! ## Heap sort -/

section HeapSort

variable {α : Type}

variable (cmp : α → α → Int) (key : α → Int) (hk : ∀ x y, cmp x y < 0 ↔ key x < key y)
include hk

/-- The function `siftDownCmpFunc` returns and restores the heap property from `lo` on when only the
node `root` may be smaller than its children. -/
theorem siftDownCmpFunc_spec (hi first lo : Nat) :
    ∀ (fuel root : Nat) (data : List α), lo ≤ root → first + hi ≤ data.length →
      hi - root < fuel →
      (∀ p c, lo ≤ p → p ≠ root → c < hi → (c = 2 * p + 1 ∨ c = 2 * p + 2) →
        keyAt key data (first + c) ≤ keyAt key data (first + p)) →
      (∀ p c, lo ≤ p → (root = 2 * p + 1 ∨ root = 2 * p + 2) → c < hi →
        (c = 2 * root + 1 ∨ c = 2 * root + 2) →
        keyAt key data (first + c) ≤ keyAt key data (first + p)) →
      ∃ out, siftDownCmpFunc cmp hi first fuel root data = some out ∧
        Shuffle (first + lo) (first + hi) data out ∧ HeapFrom key out first lo hi := by
  intro fuel
  induction fuel with
  | zero => intro root data _ _ h; omega
  | succ fuel ih =>
    intro root data hlo hlen hf hH hG
    simp only [siftDownCmpFunc]
    by_cases hc : hi ≤ 2 * root + 1
    · rw [if_pos hc]
      refine ⟨data, rfl, Shuffle.refl _, ?_⟩
      intro p c hp hch hpc
      by_cases hpr : p = root
      · subst hpr; omega
      · exact hH p c hp hpr hch hpc
    · rw [if_neg hc]
      have hup : ∃ up, (if 2 * root + 1 + 1 < hi
            then lessAt cmp data (first + (2 * root + 1)) (first + (2 * root + 1) + 1)
            else some false) = some up ∧
          ∃ c1, c1 = (if up = true then 2 * root + 1 + 1 else 2 * root + 1) ∧ c1 < hi ∧
            (c1 = 2 * root + 1 ∨ c1 = 2 * root + 2) ∧
            ∀ c, c < hi → (c = 2 * root + 1 ∨ c = 2 * root + 2) →
              keyAt key data (first + c) ≤ keyAt key data (first + c1) := by
        by_cases h2 : 2 * root + 1 + 1 < hi
        · rw [if_pos h2, lessAt_eq cmp key hk data _ _ (by omega) (by omega)]
          by_cases hlt : keyAt key data (first + (2 * root + 1)) <
              keyAt key data (first + (2 * root + 1) + 1)
          · refine ⟨true, by simp [hlt], 2 * root + 1 + 1, by simp, h2, by omega, ?_⟩
            intro c hc1 hc2
            rcases hc2 with rfl | rfl
            · exact le_of_lt hlt
            · exact le_refl _
          · refine ⟨false, by simp [hlt], 2 * root + 1, by simp, by omega, by omega, ?_⟩
            intro c hc1 hc2
            rcases hc2 with rfl | rfl
            · exact le_refl _
            · exact not_lt.1 hlt
        · rw [if_neg h2]
          refine ⟨false, rfl, 2 * root + 1, by simp, by omega, by omega, ?_⟩
          intro c hc1 hc2
          rcases hc2 with rfl | rfl
          · exact le_refl _
          · omega
      obtain ⟨up, eup, c1, hc1def, hc1hi, hc1, hsib⟩ := hup
      simp only [eup]
      rw [← hc1def]
      rw [lessAt_eq cmp key hk data (first + root) (first + c1) (by omega) (by omega)]
      by_cases hlt : keyAt key data (first + root) < keyAt key data (first + c1)
      · simp only [hlt, decide_True]
        rw [swapAt_eq data (first + root) (first + c1) (by omega) (by omega)]
        simp only
        have hir : first + root < data.length := by omega
        have hic : first + c1 < data.length := by omega
        have hH' : ∀ p c, lo ≤ p → p ≠ c1 → c < hi → (c = 2 * p + 1 ∨ c = 2 * p + 2) →
            keyAt key (swp data (first + root) (first + c1)) (first + c) ≤
              keyAt key (swp data (first + root) (first + c1)) (first + p) := by
          intro p c hp hpc1 hch hpc
          by_cases hpr : p = root
          · subst hpr
            rw [keyAt_swp_snd key data _ _ hir hic]
            by_cases hcc : c = c1
            · subst hcc
              rw [keyAt_swp_fst key data _ _ hir hic]
              exact le_of_lt hlt
            · rw [keyAt_swp_ne key data _ _ (first + c) hir hic (by omega) (by omega)]
              exact hsib c hch hpc
          · rw [keyAt_swp_ne key data _ _ (first + p) hir hic (by omega) (by omega)]
            by_cases hcr : c = root
            · subst hcr
              rw [keyAt_swp_snd key data _ _ hir hic]
              exact hG p c1 hp hpc hc1hi hc1
            · rw [keyAt_swp_ne key data _ _ (first + c) hir hic (by omega) (by omega)]
              exact hH p c hp hpr hch hpc
        have hG' : ∀ p c, lo ≤ p → (c1 = 2 * p + 1 ∨ c1 = 2 * p + 2) → c < hi →
            (c = 2 * c1 + 1 ∨ c = 2 * c1 + 2) →
            keyAt key (swp data (first + root) (first + c1)) (first + c) ≤
              keyAt key (swp data (first + root) (first + c1)) (first + p) := by
          intro p c hp hpc1 hch hpc
          have hpr : p = root := by omega
          subst hpr
          rw [keyAt_swp_snd key data _ _ hir hic,
            keyAt_swp_ne key data _ _ (first + c) hir hic (by omega) (by omega)]
          exact hH c1 c (by omega) (by omega) hch hpc
        have hlen' : first + hi ≤ (swp data (first + root) (first + c1)).length := by
          rw [swp_length]; exact hlen
        obtain ⟨out, ho, hsh, hheap⟩ := ih c1 (swp data (first + root) (first + c1)) (by omega)
          hlen' (by omega) hH' hG'
        exact ⟨out, ho, Shuffle.step data out (first + root) (first + c1) (by omega) (by omega)
          (by omega) (by omega) (by omega) (by omega) hsh, hheap⟩
      · simp only [hlt, decide_False]
        refine ⟨data, rfl, Shuffle.refl _, ?_⟩
        intro p c hp hch hpc
        by_cases hpr : p = root
        · subst hpr
          have := hsib c hch hpc
          omega
        · exact hH p c hp hpr hch hpc

end HeapSort

section HeapSortLoops

variable {α : Type}
variable (cmp : α → α → Int) (key : α → Int) (hk : ∀ x y, cmp x y < 0 ↔ key x < key y)
include hk

theorem heapBuild_spec (hi first : Nat) :
    ∀ (i : Nat) (data : List α), first + hi ≤ data.length → HeapFrom key data first (i + 1) hi →
      ∃ out, heapBuild cmp hi first i data = some out ∧
        Shuffle first (first + hi) data out ∧ HeapFrom key out first 0 hi := by
  intro i
  induction i with
  | zero =>
    intro data hlen hheap
    obtain ⟨out, ho, hsh, hh⟩ := siftDownCmpFunc_spec cmp key hk hi first 0 (hi + 1) 0 data
      (le_refl _) hlen (by omega)
      (fun p c hp hpr hch hpc => hheap p c (by omega) hch hpc)
      (fun p c hp hpr hch hpc => by omega)
    exact ⟨out, by simp only [heapBuild, ho], by simpa using hsh, hh⟩
  | succ i ih =>
    intro data hlen hheap
    obtain ⟨out1, ho1, hsh1, hh1⟩ := siftDownCmpFunc_spec cmp key hk hi first (i + 1) (hi + 1)
      (i + 1) data (le_refl _) hlen (by omega)
      (fun p c hp hpr hch hpc => hheap p c (by omega) hch hpc)
      (fun p c hp hpr hch hpc => by omega)
    obtain ⟨out, ho, hsh, hh⟩ := ih out1 (by rw [hsh1.length_eq]; exact hlen) hh1
    exact ⟨out, by simp only [heapBuild, ho1, ho],
      (hsh1.mono (by omega) (le_refl _)).trans hsh, hh⟩

omit hk in
/-- The root of a heap has the greatest key. -/
theorem heap_root_max (data : List α) (first hi : Nat) (h : HeapFrom key data first 0 hi) :
    ∀ k, k < hi → keyAt key data (first + k) ≤ keyAt key data (first + 0) := by
  intro k
  induction k using Nat.strong_induction_on with
  | _ k ih =>
    intro hk1
    rcases Nat.eq_zero_or_pos k with h0 | h0
    · subst h0; exact le_refl _
    · have h1 := h ((k - 1) / 2) k (Nat.zero_le _) hk1 (by omega)
      have h2 := ih ((k - 1) / 2) (by omega) (by omega)
      exact le_trans h1 h2

theorem heapPop_spec (first hi : Nat) :
    ∀ (n : Nat) (data : List α), n ≤ hi → first + hi ≤ data.length →
      HeapFrom key data first 0 n → SortedOn key (first + n) (first + hi) data →
      (∀ k m, k < n → n ≤ m → m < hi →
        keyAt key data (first + k) ≤ keyAt key data (first + m)) →
      ∃ out, heapPop cmp first n data = some out ∧
        Shuffle first (first + hi) data out ∧ SortedOn key first (first + hi) out := by
  intro n
  induction n with
  | zero =>
    intro data _ _ _ hs _
    exact ⟨data, rfl, Shuffle.refl _, by simpa using hs⟩
  | succ i ih =>
    intro data hn hlen hheap hs hcross
    have hmax := heap_root_max key data first (i + 1) hheap
    have hl1 : (swp data first (first + i)).length = data.length := swp_length _ _ _
    have hfi : first < data.length := by omega
    have hli : first + i < data.length := by omega
    have hH1 : ∀ p c, 0 ≤ p → p ≠ 0 → c < i → (c = 2 * p + 1 ∨ c = 2 * p + 2) →
        keyAt key (swp data first (first + i)) (first + c) ≤
          keyAt key (swp data first (first + i)) (first + p) := by
      intro p c hp hpr hch hpc
      rw [keyAt_swp_ne key data _ _ (first + c) hfi hli (by omega) (by omega),
        keyAt_swp_ne key data _ _ (first + p) hfi hli (by omega) (by omega)]
      exact hheap p c hp (by omega) hpc
    obtain ⟨out1, ho1, hsh1, hh1⟩ := siftDownCmpFunc_spec cmp key hk i first 0 (i + 1) 0
      (swp data first (first + i)) (le_refl _) (by omega) (by omega) hH1
      (fun p c hp hpr hch hpc => by omega)
    have hsh1' : Shuffle first (first + i) (swp data first (first + i)) out1 := by
      simpa using hsh1
    have hl2 : out1.length = data.length := by rw [hsh1.length_eq, hl1]
    have hout : ∀ m, i ≤ m → keyAt key out1 (first + m) =
        keyAt key (swp data first (first + i)) (first + m) :=
      fun m hm => hsh1'.keyAt_outside key (first + m) (by omega)
    have hmax0 : ∀ m, i + 1 ≤ m → m < hi →
        keyAt key data first ≤ keyAt key data (first + m) :=
      fun m hm1 hm2 => by simpa using hcross 0 m (by omega) hm1 hm2
    have hmaxi : ∀ k, k < i + 1 → keyAt key data (first + k) ≤ keyAt key data first :=
      fun k hk1 => by simpa using hmax k hk1
    have hnewi : keyAt key (swp data first (first + i)) (first + i) = keyAt key data first :=
      keyAt_swp_fst key data first (first + i) hfi hli
    have hnew : ∀ m, i < m → keyAt key (swp data first (first + i)) (first + m) =
        keyAt key data (first + m) :=
      fun m hm => keyAt_swp_ne key data _ _ (first + m) hfi hli (by omega) (by omega)
    have hsorted : SortedOn key (first + i) (first + hi) out1 := by
      intro p q hp hpq hq
      obtain ⟨p', rfl⟩ : ∃ p', p = first + p' := ⟨p - first, by omega⟩
      obtain ⟨q', rfl⟩ : ∃ q', q = first + q' := ⟨q - first, by omega⟩
      rw [hout p' (by omega), hout q' (by omega), hnew q' (by omega)]
      rcases Nat.lt_or_ge i p' with h | h
      · rw [hnew p' h]
        exact hs (first + p') (first + q') (by omega) hpq hq
      · have : p' = i := by omega
        subst this
        rw [hnewi]
        exact hmax0 q' (by omega) (by omega)
    have hcross1 : ∀ k m, k < i → i ≤ m → m < hi →
        keyAt key out1 (first + k) ≤ keyAt key out1 (first + m) := by
      intro k m hk1 hm1 hm2
      rw [hout m hm1]
      have hbound : ∀ j, first ≤ j → j < first + i →
          keyAt key (swp data first (first + i)) j ≤
            keyAt key (swp data first (first + i)) (first + m) := by
        intro j hj1 hj2
        obtain ⟨j', rfl⟩ : ∃ j', j = first + j' := ⟨j - first, by omega⟩
        have hj : keyAt key (swp data first (first + i)) (first + j') ≤ keyAt key data first := by
          rcases Nat.eq_zero_or_pos j' with h0 | h0
          · subst h0
            rw [Nat.add_zero, keyAt_swp_snd key data first (first + i) hfi hli]
            exact hmaxi i (by omega)
          · rw [keyAt_swp_ne key data _ _ (first + j') hfi hli (by omega) (by omega)]
            exact hmaxi j' (by omega)
        rcases Nat.lt_or_ge i m with h | h
        · rw [hnew m h]
          exact le_trans hj (hmax0 m (by omega) hm2)
        · have : m = i := by omega
          subst this
          rw [hnewi]
          exact hj
      exact hsh1'.forall_keyAt key
        (fun v => v ≤ keyAt key (swp data first (first + i)) (first + m)) hbound
        (first + k) (by omega) (by omega)
    obtain ⟨out, ho, hsh, hso⟩ := ih out1 (by omega) (by omega) hh1 hsorted hcross1
    refine ⟨out, ?_, ?_, hso⟩
    · simp only [heapPop]
      rw [swapAt_eq data first (first + i) (by omega) (by omega)]
      simp only [ho1, ho]
    · exact (Shuffle.swap data first (first + i) (le_refl _) (by omega) (by omega) (by omega)
        (by omega) (by omega)).trans ((hsh1'.mono (le_refl _) (by omega)).trans hsh)

/-- The function `heapSortCmpFunc` returns, shuffles and sorts the range. -/
theorem heapSortCmpFunc_spec (data : List α) (a b : Nat) (hab : a ≤ b) (hb : b ≤ data.length) :
    ∃ out, heapSortCmpFunc cmp data a b = some out ∧ Shuffle a b data out ∧
      SortedOn key a b out := by
  have e : a + (b - a) = b := by omega
  obtain ⟨out1, ho1, hsh1, hh1⟩ := heapBuild_spec cmp key hk (b - a) a ((b - a - 1) / 2) data
    (by omega) (by intro p c hp hch hpc; omega)
  obtain ⟨out, ho, hsh, hso⟩ := heapPop_spec cmp key hk a (b - a) (b - a) out1 (le_refl _)
    (by rw [hsh1.length_eq]; omega) hh1 (by intro p q _ _ _; omega)
    (by intro k m _ _ _; omega)
  rw [e] at hsh1 hsh hso
  exact ⟨out, by simp only [heapSortCmpFunc, ho1, ho], hsh1.trans hsh, hso⟩

end HeapSortLoops

/-! ## The main loop of the sort -/

section PdqsortMain

variable {α : Type}

/-- Two sorted ranges around a pivot that separates them form a sorted range. -/
theorem sortedOn_glue (key : α → Int) (out : List α) (a mid b : Nat)
    (h1 : SortedOn key a mid out) (h2 : SortedOn key (mid + 1) b out)
    (h3 : ∀ k, a ≤ k → k < mid → keyAt key out k ≤ keyAt key out mid)
    (h4 : ∀ k, mid < k → k < b → keyAt key out mid ≤ keyAt key out k) :
    SortedOn key a b out := by
  intro p q hp hpq hq
  rcases Nat.lt_or_ge q mid with hq1 | hq1
  · exact h1 p q hp hpq hq1
  · rcases Nat.lt_or_ge mid p with hp1 | hp1
    · exact h2 p q (by omega) hpq hq
    · rcases Nat.lt_or_ge p mid with hp2 | hp2
      · rcases Nat.lt_or_ge mid q with hq2 | hq2
        · exact le_trans (h3 p hp hp2) (h4 q hq2 hq)
        · have : q = mid := by omega
          subst this
          exact h3 p hp hp2
      · have : p = mid := by omega
        subst this
        exact h4 q (by omega) hq

variable (cmp : α → α → Int) (key : α → Int) (hk : ∀ x y, cmp x y < 0 ↔ key x < key y)
include hk

/-- The loop of `pdqsortCmpFunc` returns whenever the budget exceeds the length of the
range, and its result is a shuffle of the range that is sorted; the element before the
range, if any, has to be a lower bound of the range. -/
theorem pdqsortLoop_spec :
    ∀ (fuel : Nat) (data : List α) (a b limit : Nat) (wasBalanced wasPartitioned : Bool),
      a ≤ b → b ≤ data.length → b - a < fuel →
      (0 < a → ∀ k, a ≤ k → k < b → keyAt key data (a - 1) ≤ keyAt key data k) →
      ∃ out, pdqsortLoop cmp fuel data a b limit wasBalanced wasPartitioned = some out ∧
        Shuffle a b data out ∧ SortedOn key a b out := by
  intro fuel
  induction fuel with
  | zero => intro data a b limit wb wp _ _ h; omega
  | succ fuel ih =>
    intro data a b limit wb wp hab hb hf hsent
    simp only [pdqsortLoop]
    by_cases h12 : b - a ≤ 12
    · rw [if_pos h12]
      obtain ⟨out, ho, hsh, hso, _⟩ := insertionSortCmpFunc_spec cmp key hk data a b hb
      exact ⟨out, ho, hsh, hso⟩
    rw [if_neg h12]
    by_cases hl0 : limit = 0
    · rw [if_pos hl0]
      exact heapSortCmpFunc_spec cmp key hk data a b hab hb
    rw [if_neg hl0]
    -- breakPatterns
    have hA : ∃ data1 limit1, (if (!wb) = true
          then Option.map (fun d => (d, limit - 1)) (breakPatternsCmpFunc data a b)
          else some (data, limit)) = some (data1, limit1) ∧ Shuffle a b data data1 := by
      split_ifs
      · obtain ⟨out, ho, hsh⟩ := breakPatternsCmpFunc_spec data a b hab hb
        exact ⟨out, limit - 1, by simp [ho], hsh⟩
      · exact ⟨data, limit, rfl, Shuffle.refl _⟩
    obtain ⟨data1, limit1, eA, hsh1⟩ := hA
    have hl1 : data1.length = data.length := hsh1.length_eq
    simp only [eA]
    -- choosePivot
    obtain ⟨pivot0, hint0, eP, hp1, hp2⟩ := choosePivotCmpFunc_spec cmp data1 a b (by omega)
      (by omega)
    simp only [eP]
    -- reverseRange
    have hB : ∃ data2 pivot hint, (if hint0 = sortedHint.decreasingHint
          then Option.map (fun d => (d, b - 1 - (pivot0 - a), sortedHint.increasingHint))
            (reverseRangeCmpFunc data1 a b)
          else some (data1, pivot0, hint0)) = some (data2, pivot, hint) ∧
        Shuffle a b data1 data2 ∧ a ≤ pivot ∧ pivot < b := by
      split_ifs
      · obtain ⟨out, ho, hsh⟩ := reverseRangeCmpFunc_spec data1 a b hab (by omega)
        exact ⟨out, b - 1 - (pivot0 - a), sortedHint.increasingHint, by simp [ho], hsh,
          by omega, by omega⟩
      · exact ⟨data1, pivot0, hint0, rfl, Shuffle.refl _, hp1, hp2⟩
    obtain ⟨data2, pivot, hint, eB, hsh2, hpv1, hpv2⟩ := hB
    have hl2 : data2.length = data.length := by rw [hsh2.length_eq, hl1]
    have hs02 : Shuffle a b data data2 := hsh1.trans hsh2
    simp only [eB]
    -- partialInsertionSort
    have hC : ∃ data3 flag, (if (wb && wp && decide (hint = sortedHint.increasingHint)) = true
          then partialInsertionSortCmpFunc cmp data2 a b
          else some (data2, false)) = some (data3, flag) ∧
        Shuffle a b data2 data3 ∧ (flag = true → SortedOn key a b data3) := by
      split_ifs
      · exact partialInsertionSortCmpFunc_spec cmp key hk data2 a b (by omega) (by omega)
          (hs02.sentinel key hsent)
      · exact ⟨data2, false, rfl, Shuffle.refl _, fun h => by simp at h⟩
    obtain ⟨data3, flag, eC, hsh3, hflag⟩ := hC
    have hl3 : data3.length = data.length := by rw [hsh3.length_eq, hl2]
    have hs03 : Shuffle a b data data3 := hs02.trans hsh3
    have hsent3 := hs03.sentinel key hsent
    simp only [eC]
    cases flag with
    | true => exact ⟨data3, rfl, hs03, hflag rfl⟩
    | false =>
      simp only
      have hD : ∃ t, (if 0 < a
            then Option.map (fun lt => !lt) (lessAt cmp data3 (a - 1) pivot)
            else some false) = some t ∧
          (t = true → 0 < a ∧ keyAt key data3 pivot ≤ keyAt key data3 (a - 1)) := by
        split_ifs with ha0
        · rw [lessAt_eq cmp key hk data3 (a - 1) pivot (by omega) (by omega)]
          refine ⟨_, rfl, ?_⟩
          intro ht
          simp only [Option.map_some', Bool.not_eq_true', decide_eq_false_iff_not, not_lt] at ht
          exact ⟨ha0, ht⟩
        · exact ⟨false, rfl, fun h => by simp at h⟩
      obtain ⟨t, eD, ht⟩ := hD
      simp only [eD]
      cases t with
      | true =>
        simp only
        obtain ⟨ha0, hple⟩ := ht rfl
        obtain ⟨data4, mid, eE, hsh4, hm1, hm2, hleft, hright⟩ :=
          partitionEqualCmpFunc_spec cmp key hk data3 a b pivot hpv1 hpv2 (by omega)
        have hl4 : data4.length = data.length := by rw [hsh4.length_eq, hl3]
        have hs04 : Shuffle a b data data4 := hs03.trans hsh4
        have hsent4 := hs04.sentinel key hsent ha0
        have h34 : keyAt key data4 (a - 1) = keyAt key data3 (a - 1) :=
          hsh4.keyAt_outside key (a - 1) (by omega)
        simp only [eE]
        obtain ⟨out, ho, hsh5, hso5⟩ := ih data4 mid b limit1 wb wp hm2 (by omega) (by omega)
          (by
            intro _ k hk1 hk2
            have := hleft (mid - 1) (by omega) (by omega)
            have := hright k hk1 hk2
            omega)
        refine ⟨out, ho, hs04.trans (hsh5.mono (by omega) (le_refl _)), ?_⟩
        have hout : ∀ k, k < mid → keyAt key out k = keyAt key data4 k :=
          fun k hk1 => hsh5.keyAt_outside key k (Or.inl hk1)
        have hright' := hsh5.forall_keyAt key (fun v => keyAt key data3 pivot < v) hright
        intro p q hp hpq hq
        rcases Nat.lt_or_ge q mid with hq1 | hq1
        · rw [hout p (by omega), hout q hq1]
          have := hleft p hp (by omega); have := hleft q (by omega) hq1
          have := hsent4 p hp (by omega); have := hsent4 q (by omega) (by omega)
          omega
        · rcases Nat.lt_or_ge p mid with hp1 | hp1
          · rw [hout p hp1]
            have := hleft p hp hp1
            have := hright' q hq1 hq
            omega
          · exact hso5 p q hp1 hpq hq
      | false =>
        simp only
        obtain ⟨data4, mid, ap, eE, hsh4, hm1, hm2, hleft, hright⟩ :=
          partitionCmpFunc_spec cmp key hk data3 a b pivot hpv1 hpv2 (by omega)
        have hl4 : data4.length = data.length := by rw [hsh4.length_eq, hl3]
        have hs04 : Shuffle a b data data4 := hs03.trans hsh4
        have hsent4 := hs04.sentinel key hsent
        simp only [eE]
        split_ifs with hlr
        · obtain ⟨data5, e5, hsh5, hso5⟩ := ih data4 a mid limit1 true true hm1 (by omega)
            (by omega) (fun ha0 k hk1 hk2 => hsent4 ha0 k hk1 (by omega))
          have hl5 : data5.length = data.length := by rw [hsh5.length_eq, hl4]
          have h5out : ∀ k, mid ≤ k → keyAt key data5 k = keyAt key data4 k :=
            fun k hk1 => hsh5.keyAt_outside key k (Or.inr hk1)
          obtain ⟨out, ho, hsh6, hso6⟩ := ih data5 (mid + 1) b limit1
            (decide ((b - a) / 8 ≤ mid - a)) ap (by omega) (by omega) (by omega)
            (by
              intro _ k hk1 hk2
              have := hright k (by omega) hk2
              rw [h5out k (by omega), Nat.add_sub_cancel, h5out mid (le_refl _)]
              exact this)
          have h6out : ∀ k, k ≤ mid → keyAt key out k = keyAt key data5 k :=
            fun k hk1 => hsh6.keyAt_outside key k (Or.inl (by omega))
          simp only [e5, ho]
          refine ⟨out, rfl, hs04.trans ((hsh5.mono (le_refl _) (by omega)).trans
            (hsh6.mono (by omega) (le_refl _))), ?_⟩
          apply sortedOn_glue key out a mid b
          · exact hsh6.sortedOn_outside key hso5 (Or.inl (by omega))
          · exact hso6
          · intro k hk1 hk2
            rw [h6out k (by omega), h6out mid (le_refl _), h5out mid (le_refl _)]
            exact le_of_lt (hsh5.forall_keyAt key (fun v => v < keyAt key data4 mid) hleft k hk1 hk2)
          · intro k hk1 hk2
            rw [h6out mid (le_refl _), h5out mid (le_refl _)]
            exact hsh6.forall_keyAt key (fun v => keyAt key data4 mid ≤ v)
              (fun j hj1 hj2 => by rw [h5out j (by omega)]; exact hright j (by omega) hj2)
              k (by omega) hk2
        · obtain ⟨data5, e5, hsh5, hso5⟩ := ih data4 (mid + 1) b limit1 true true (by omega)
            (by omega) (by omega)
            (by
              intro _ k hk1 hk2
              rw [Nat.add_sub_cancel]
              exact hright k (by omega) hk2)
          have hl5 : data5.length = data.length := by rw [hsh5.length_eq, hl4]
          have h5out : ∀ k, k ≤ mid → keyAt key data5 k = keyAt key data4 k :=
            fun k hk1 => hsh5.keyAt_outside key k (Or.inl (by omega))
          obtain ⟨out, ho, hsh6, hso6⟩ := ih data5 a mid limit1
            (decide ((b - a) / 8 ≤ b - mid)) ap hm1 (by omega) (by omega)
            (by
              intro ha0 k hk1 hk2
              rw [h5out k (by omega), h5out (a - 1) (by omega)]
              exact hsent4 ha0 k hk1 (by omega))
          have h6out : ∀ k, mid ≤ k → keyAt key out k = keyAt key data5 k :=
            fun k hk1 => hsh6.keyAt_outside key k (Or.inr hk1)
          simp only [e5, ho]
          refine ⟨out, rfl, hs04.trans ((hsh5.mono (by omega) (le_refl _)).trans
            (hsh6.mono (le_refl _) (by omega))), ?_⟩
          apply sortedOn_glue key out a mid b
          · exact hso6
          · exact hsh6.sortedOn_outside key hso5 (Or.inr (by omega))
          · intro k hk1 hk2
            rw [h6out mid (le_refl _), h5out mid (le_refl _)]
            exact le_of_lt (hsh6.forall_keyAt key (fun v => v < keyAt key data4 mid)
              (fun j hj1 hj2 => by rw [h5out j (by omega)]; exact hleft j hj1 hj2) k hk1 hk2)
          · intro k hk1 hk2
            rw [h6out mid (le_refl _), h6out k (by omega), h5out mid (le_refl _)]
            exact hsh5.forall_keyAt key (fun v => keyAt key data4 mid ≤ v)
              (fun j hj1 hj2 => hright j (by omega) hj2) k (by omega) hk2

end PdqsortMain

/-! ## The ranking step -/

/-- The comparator of `run` is negative exactly when the first record was updated before
the second. -/
theorem updatedAtCmp_lt_iff (a b : Containers) :
    updatedAtCmp a b < 0 ↔ a.Pr.UpdatedAt.ns < b.Pr.UpdatedAt.ns := by
  simp only [updatedAtCmp, toInt, Time.Sub, Time.Before, minDuration, maxDuration]
  split_ifs with h1 h2
  · omega
  · simp at h2; omega
  · simp at h2; omega

/-- The function `slices.SortFunc` returns a sorted permutation of its argument, for every comparator
that compares keys. -/
theorem SortFunc_spec {α : Type} (cmp : α → α → Int) (key : α → Int)
    (hk : ∀ x y, cmp x y < 0 ↔ key x < key y) (x : List α) :
    ∃ out, SortFunc cmp x = some out ∧ out.Perm x ∧
      out.Pairwise (fun p q => key p ≤ key q) := by
  obtain ⟨out, ho, hsh, hso⟩ := pdqsortLoop_spec cmp key hk (x.length + 1) x 0 x.length
    (bitsLen x.length) true true (Nat.zero_le _) (le_refl _) (by omega) (fun h => by omega)
  refine ⟨out, ho, hsh.perm, ?_⟩
  apply sortedOn_pairwise
  rw [hsh.length_eq]
  exact hso

/-- On at most 12 elements `slices.SortFunc` keeps the elements of each key in their
order. -/
theorem SortFunc_small {α : Type} (cmp : α → α → Int) (key : α → Int)
    (hk : ∀ x y, cmp x y < 0 ↔ key x < key y) (x : List α) (h : x.length ≤ 12) :
    ∃ out, SortFunc cmp x = some out ∧
      ∀ t : Int, out.filter (fun p => decide (key p = t)) =
        x.filter (fun p => decide (key p = t)) := by
  obtain ⟨out, ho, _, _, hf⟩ := insertionSortCmpFunc_spec cmp key hk x 0 x.length (le_refl _)
  refine ⟨out, ?_, hf⟩
  simp only [SortFunc, pdqsortLoop]
  rw [if_pos (by omega)]
  exact ho

theorem rankBucket_spec (containers : List Containers) :
    ∃ ranked, rankBucket containers = some ranked ∧ ranked.Perm containers ∧
      ranked.Pairwise (fun a b => a.Pr.UpdatedAt.ns ≤ b.Pr.UpdatedAt.ns) :=
  SortFunc_spec updatedAtCmp (fun c => c.Pr.UpdatedAt.ns) updatedAtCmp_lt_iff containers

theorem rankAll_spec (g : Grouping) :
    ∃ ranked, rankAll g = some ranked ∧
      List.Forall₂ (fun before after => after.1 = before.1 ∧ after.2.Perm before.2 ∧
        after.2.Pairwise (fun a b => a.Pr.UpdatedAt.ns ≤ b.Pr.UpdatedAt.ns)) g ranked := by
  induction g with
  | nil => exact ⟨[], rfl, List.Forall₂.nil⟩
  | cons kv rest ih =>
    obtain ⟨base, containers⟩ := kv
    obtain ⟨ranked, hr, hp, hs⟩ := rankBucket_spec containers
    obtain ⟨rest1, hr1, hall⟩ := ih
    exact ⟨(base, ranked) :: rest1, by simp only [rankAll, hr, hr1],
      List.Forall₂.cons ⟨rfl, hp, hs⟩ hall⟩

/-- C1: the ranking step returns for every bucket, and the ranked bucket holds
exactly the records of the bucket (it is a permutation of it) in ascending order
of last update: every record that comes before another was last updated no later
than it. After the ranking loop the map has, key by key, such a ranked form of
every bucket. The `int` of the comparator is the 64-bit integer. -/
theorem rank_sorted :
    (∀ containers : List Containers, ∃ ranked, rankBucket containers = some ranked ∧
      ranked.Perm containers ∧
      ranked.Pairwise (fun a b => a.Pr.UpdatedAt.ns ≤ b.Pr.UpdatedAt.ns)) ∧
    (∀ g : Grouping, ∃ ranked, rankAll g = some ranked ∧
      List.Forall₂ (fun before after => after.1 = before.1 ∧ after.2.Perm before.2 ∧
        after.2.Pairwise (fun a b => a.Pr.UpdatedAt.ns ≤ b.Pr.UpdatedAt.ns)) g ranked) :=
  ⟨rankBucket_spec, rankAll_spec⟩

/-- C8: the ranking loop returns a map with the same keys, and the bucket of
each key after ranking is a permutation of the bucket before ranking, hence of
the same length. -/
theorem rank_preserves (g : Grouping) :
    ∃ ranked, rankAll g = some ranked ∧ GoMap.keys ranked = GoMap.keys g ∧
      List.Forall₂ (fun before after => after.1 = before.1 ∧ after.2.Perm before.2 ∧
        after.2.length = before.2.length) g ranked := by
  obtain ⟨ranked, hr, hall⟩ := rankAll_spec g
  refine ⟨ranked, hr, ?_, ?_⟩
  · clear hr
    induction hall with
    | nil => rfl
    | cons h _ ih =>
      simp only [GoMap.keys, List.map_cons] at ih ⊢
      rw [ih, h.1]
  · exact List.Forall₂.imp (fun _ _ h => ⟨h.1, h.2.1, h.2.1.length_eq⟩) hall

set_option maxRecDepth 100000 in
theorem rank_sorted_witness :
    rankAll scenarioGrouping =
      some [("main", [recordAt 2 10, recordAt 4 20, recordAt 1 30, recordAt 5 40, recordAt 3 50]),
            ("symphonics:development",
              [recordAt 6 0, recordAt 1 0, recordAt 2 0, recordAt 3 0, recordAt 4 0,
               recordAt 5 0, recordAt 7 0, recordAt 8 0, recordAt 9 0, recordAt 10 0,
               recordAt 11 0, recordAt 12 0, recordAt 0 1])] ∧
    [recordAt 2 10, recordAt 4 20, recordAt 1 30, recordAt 5 40, recordAt 3 50].Perm
      [recordAt 1 30, recordAt 2 10, recordAt 3 50, recordAt 4 20, recordAt 5 40] ∧
    [recordAt 2 10, recordAt 4 20, recordAt 1 30, recordAt 5 40, recordAt 3 50].Pairwise
      (fun a b => a.Pr.UpdatedAt.ns ≤ b.Pr.UpdatedAt.ns) := by
  have hc : rankAll scenarioGrouping =
      some [("main", [recordAt 2 10, recordAt 4 20, recordAt 1 30, recordAt 5 40, recordAt 3 50]),
            ("symphonics:development",
              [recordAt 6 0, recordAt 1 0, recordAt 2 0, recordAt 3 0, recordAt 4 0,
               recordAt 5 0, recordAt 7 0, recordAt 8 0, recordAt 9 0, recordAt 10 0,
               recordAt 11 0, recordAt 12 0, recordAt 0 1])] := by
    decide
  obtain ⟨ranked, hr, hall⟩ := rank_sorted.2 scenarioGrouping
  rw [hc] at hr
  injection hr with hr
  subst hr
  simp only [scenarioGrouping, List.forall₂_cons] at hall
  exact ⟨hc, hall.1.2.1, hall.1.2.2⟩

/-- C2 (amended): for a bucket of at most 12 records the ranking step keeps the
records of every instant of last update in their collection order. -/
theorem rank_stable_small (containers : List Containers) (h : containers.length ≤ 12) :
    ∃ ranked, rankBucket containers = some ranked ∧
      ∀ t : Time, ranked.filter (fun c => decide (c.Pr.UpdatedAt = t)) =
        containers.filter (fun c => decide (c.Pr.UpdatedAt = t)) := by
  obtain ⟨ranked, hr, hf⟩ := SortFunc_small updatedAtCmp (fun c => c.Pr.UpdatedAt.ns)
    updatedAtCmp_lt_iff containers h
  refine ⟨ranked, hr, ?_⟩
  intro t
  have e : (fun c : Containers => decide (c.Pr.UpdatedAt = t)) =
      (fun c : Containers => decide (c.Pr.UpdatedAt.ns = t.ns)) := by
    funext c
    cases hc : c.Pr.UpdatedAt
    cases t
    simp
  rw [e]
  exact hf t.ns

theorem rank_stable_small_witness :
    rankBucket [recordAt 1 7, recordAt 2 7] = some [recordAt 1 7, recordAt 2 7] ∧
    ∃ ranked, rankBucket [recordAt 1 7, recordAt 2 7] = some ranked ∧
      ∀ t : Time, ranked.filter (fun c => decide (c.Pr.UpdatedAt = t)) =
        [recordAt 1 7, recordAt 2 7].filter (fun c => decide (c.Pr.UpdatedAt = t)) :=
  ⟨by decide, rank_stable_small [recordAt 1 7, recordAt 2 7] (by decide)⟩

set_option maxRecDepth 100000 in
/-- C2 (counterexample): on the bucket `unstableBucket` of 13 records the ranking
step moves the pull request 6 in front of the pull requests 1 to 5, which have
the same instant of last update and were collected before it; so the ranking
step does not keep equal-instant records in collection order in general. -/
theorem rank_not_stable :
    rankBucket unstableBucket =
      some [recordAt 6 0, recordAt 1 0, recordAt 2 0, recordAt 3 0, recordAt 4 0, recordAt 5 0,
        recordAt 7 0, recordAt 8 0, recordAt 9 0, recordAt 10 0, recordAt 11 0, recordAt 12 0,
        recordAt 0 1] ∧
    ¬ ∀ (containers ranked : List Containers), rankBucket containers = some ranked →
      ∀ t : Time, ranked.filter (fun c => decide (c.Pr.UpdatedAt = t)) =
        containers.filter (fun c => decide (c.Pr.UpdatedAt = t)) := by
  have h : rankBucket unstableBucket =
      some [recordAt 6 0, recordAt 1 0, recordAt 2 0, recordAt 3 0, recordAt 4 0, recordAt 5 0,
        recordAt 7 0, recordAt 8 0, recordAt 9 0, recordAt 10 0, recordAt 11 0, recordAt 12 0,
        recordAt 0 1] := by decide
  refine ⟨h, ?_⟩
  intro hall
  have := hall _ _ h ⟨0⟩
  revert this
  decide

end QueuePr
